import Mathlib

/-!
Verification development for the formgram library (src/formgram.py): a
Telegram form toolkit whose state lives entirely in the rendered message.
We shallowly embed the field type system, the message codec
(`to_message` / `from_message`), the schema builder (`FormMeta.__new__`),
and the action handlers (`handle_submit`, `handle_cancel`,
`BoolField._handle_edit`), and prove or refute the frozen claims about
them.  Strings are modelled as `List Char` (`Str`); Python exceptions as
an explicit error type threaded through `Except` / product results.
-/

set_option maxRecDepth 10000

/-- Strings of the embedded program: Python `str` values as lists of characters. -/
abbrev Str := List Char

/-- Python-style errors raised by the embedded code. -/
inductive PyErr where
  | valueError (msg : Str)
  | keyError
  | typeError
  | indexError
deriving DecidableEq

/-! ### Constants of `formgram.py` (module level and `BaseForm` class attributes) -/

/-- MISSING_VALUE_ICON = '💢' (line 12). -/
def missingIcon : Str := "💢".data

/-- READ_ONLY_ICON = '🔒' (line 13). -/
def readOnlyIcon : Str := "🔒".data

/-- EDIT_ICON = '✏️' (line 14); two code points: pencil + variation selector. -/
def editIcon : Str := "✏️".data

/-- BaseForm.separator = ': ' (line 396). -/
def separator : Str := ": ".data

/-- BaseForm.missing_value_str = '' (line 397). -/
def missing_value_str : Str := []

/-- BaseForm._meta_char = ' ' (line 405). -/
def metaChar : Char := ' '

/-- BaseForm._meta_link_prefix = 'http://ke.mi/?meta=' (line 406). -/
def metaLinkHead : Str := "http://ke.mi/?meta=".data

/-- BaseForm._meta_kv_separator = 'ࠂ' (line 407). -/
def metaKvSep : Char := 'ࠂ'

/-- BaseForm._meta_concatenator = 'ࠁ' (line 408). -/
def metaConcat : Char := 'ࠁ'

/-- DynamicChoiceField.separator = 'ࠍ' (line 271). -/
def dynSep : Char := 'ࠍ'

/-- Key under which DynamicChoiceField.get_meta stores its choices (line 286). -/
def chsKey : Str := "choices".data

/-- Characters escaped by escape_md (line 54): `'_*~[`'` -/
def mdSpecials : Str := "_*~[`".data

/-- escape_md (lines 53-56): for each char in `'_*~[`'`, replace it by a
backslash followed by the char.  The sequential `str.replace` calls of the
source compose to this pointwise map, because the inserted backslash is not
itself in the replaced set and no replacement creates a new special char. -/
def escape_md : Str → Str
  | [] => []
  | c :: rest => (if c ∈ mdSpecials then ['\\', c] else [c]) ++ escape_md rest

/-! ### Generic string helpers (Python `str` methods used by the source) -/

/-- Python `sep.join(parts)` for a one-character separator. -/
def joinC (c : Char) (parts : List Str) : Str := List.intercalate [c] parts

/-- Python `s.split(sep)` for a one-character separator: `''.split(c) = ['']`,
and in general one more part than occurrences of `c`. -/
def splitC (c : Char) : Str → List Str
  | [] => [[]]
  | a :: rest =>
    if a = c then [] :: splitC c rest
    else
      match splitC c rest with
      | s :: ss => (a :: s) :: ss
      | [] => [[a]]

/-- Python `str.find(sub)` restricted to a non-empty pattern: index of the
first occurrence, `none` standing for the source's `-1`. -/
def findSubIdx (pat : Str) : Str → Option Nat
  | [] => if pat = [] then some 0 else none
  | c :: rest =>
    if pat.isPrefixOf (c :: rest) then some 0
    else (findSubIdx pat rest).map (· + 1)

/-- Whitespace characters for the transport's trailing trim. -/
def isWs (c : Char) : Bool := c = ' ' || c = '\n' || c = '\t' || c = '\r'

/-- Drop trailing whitespace (the transport trims message tails). -/
def trimTrailing (s : Str) : Str := (s.reverse.dropWhile isWs).reverse

/-- Python `'\n'.join(lines)` as used by to_message (line 534). -/
def joinLines (lines : List Str) : Str := joinC '\n' lines

/-- Python `str.splitlines` restricted to the inputs the codec sees:
no carriage returns and no trailing newline.  `''.splitlines() = []`. -/
def splitLines (s : Str) : List Str := if s = [] then [] else splitC '\n' s

/-! ### Decimal integers (Python `str(int)` and `int(str)`) -/

/-- Decimal digit character for `n < 10`. -/
def digitChar (n : Nat) : Char := Char.ofNat (48 + n)

/-- Decimal digits of a natural number, most significant first; fuelled so
that it is structural (fuel `n + 1` always suffices). -/
def natDigitsF : Nat → Nat → Str
  | 0, _ => []
  | fuel + 1, n =>
    if n < 10 then [digitChar n]
    else natDigitsF fuel (n / 10) ++ [digitChar (n % 10)]

/-- Decimal digits of a natural number, most significant first. -/
def natDigits (n : Nat) : Str := natDigitsF (n + 1) n

/-- Python `str(i)` on an int: optional minus sign then decimal digits. -/
def intRepr (n : Int) : Str :=
  if n < 0 then '-' :: natDigits (-n).toNat else natDigits n.toNat

/-- Value of a decimal digit character, `none` when not a digit. -/
def digitVal (c : Char) : Option Nat :=
  if 48 ≤ c.toNat ∧ c.toNat ≤ 57 then some (c.toNat - 48) else none

/-- Fold one character into a partial decimal parse. -/
def pushDigit (acc : Option Nat) (c : Char) : Option Nat :=
  acc.bind fun a => (digitVal c).map fun d => a * 10 + d

/-- Parse a non-empty all-digit string as a natural number. -/
def parseDigits (s : Str) : Option Nat :=
  if s.isEmpty then none else s.foldl pushDigit (some 0)

/-- Python `int(text)` restricted to the canonical forms the codec renders:
an optional minus sign followed by decimal digits (`none` models the
`ValueError` that `int` raises otherwise). -/
def parseInt (s : Str) : Option Int :=
  match s with
  | '-' :: rest => (parseDigits rest).map fun m => -(m : Int)
  | _ => (parseDigits s).map fun m => (m : Int)

/-! ### The field model (Python class `Field` and its subclasses, lines 65-287) -/

/-- Declared value types of fields (`Field.type_` in the source). -/
inductive FType where
  | tstr
  | tint
  | tbool
deriving DecidableEq

/-- Which subclass of the source class `Field` a field is, with the subclass-specific data:
BoolField carries its value-to-glyph table (representation for True and
False), ChoiceField carries its choice list, DynamicChoiceField its
per-instance choice list. -/
inductive FieldKind where
  | strF
  | intF
  | boolF (reprT reprF : Str)
  | choiceF (choices : List Str)
  | dynChoiceF (choices : List Str)
deriving DecidableEq

/-- A Python value stored in a field. -/
inductive FieldVal where
  | vstr (s : Str)
  | vint (n : Int)
  | vbool (b : Bool)
deriving DecidableEq

/-- The Python type of a stored value. -/
def valType : FieldVal → FType
  | .vstr _ => .tstr
  | .vint _ => .tint
  | .vbool _ => .tbool

/-- The source's `Field.type_` as fixed by each subclass's `__init__`. -/
def kindType : FieldKind → FType
  | .strF => .tstr
  | .intF => .tint
  | .boolF _ _ => .tbool
  | .choiceF _ => .tstr
  | .dynChoiceF _ => .tstr

/-- A field object: the shared attributes of the source class `Field` plus
the subclass data in `kind`.  `value` is `Field._value` (absent = Python None). -/
structure FgField where
  kind : FieldKind
  name : Str
  label : Str
  required : Bool
  read_only : Bool
  noneable : Bool
  value : Option FieldVal
deriving DecidableEq

def msgNoneNotAllowed : Str := "New value is None, but the field is not None-able".data

def msgWrongType : Str := "Field value must be of type".data

def msgInitNone : Str := "Initial value is not provided for field that is not None-able.".data

def msgChoiceInit : Str := "Initial value must be one of choices when provided!".data

def msgCannotDeserialize : Str := "Cannot deserialize message".data

def msgIntCast : Str := "invalid literal for int() with base 10".data

def msgDictPairs : Str := "dictionary update sequence element has wrong length".data

/-- The checks of the `Field.value` setter (lines 84-94), performed before
the store to `_value`.  `validate_input` is `pass` in every field class of
the source, so it contributes nothing. -/
def assignCheck (f : FgField) (v : Option FieldVal) : Option PyErr :=
  match v with
  | none => if f.noneable then none else some (PyErr.valueError msgNoneNotAllowed)
  | some x =>
    if valType x = kindType f.kind then none else some (PyErr.valueError msgWrongType)

/-- The `Field.value` setter (lines 84-94): on success the new value is
stored; when a check fails the ValueError is raised before the store, so
the field is returned unchanged together with the error. -/
def FgField.assign (f : FgField) (v : Option FieldVal) : FgField × Option PyErr :=
  match assignCheck f v with
  | none => ({ f with value := v }, none)
  | some e => (f, some e)

/-- `FgField.assign` (the `Field.value` setter) as an `Except`, for callers that propagate the raise. -/
def assignE (f : FgField) (v : Option FieldVal) : Except PyErr FgField :=
  match f.assign v with
  | (f', none) => Except.ok f'
  | (_, some e) => Except.error e

/-- The source's `Field.__init__` (lines 67-78): rejects an absent initial value for a
non-noneable field, then stores the initial value through the setter.
The attribute `name` is filled in by `FormMeta`; here it is a parameter. -/
def initField (k : FieldKind) (nm lab : Str) (initial : Option FieldVal)
    (required read_only noneable : Bool) : Except PyErr FgField :=
  if initial = none ∧ noneable = false then Except.error (PyErr.valueError msgInitNone)
  else
    let f0 : FgField := ⟨k, nm, lab, required, read_only, noneable, none⟩
    match f0.assign initial with
    | (f1, none) => Except.ok f1
    | (_, some e) => Except.error e

/-- `ChoiceField.__init__` (lines 230-242): additionally rejects an initial
value that is not one of the choices, then defers to `FgField.__init__`. -/
def initChoiceField (choices : List Str) (nm lab : Str) (initial : Option Str)
    (required read_only noneable : Bool) : Except PyErr FgField :=
  match initial with
  | some v =>
    if v ∈ choices then
      initField (FieldKind.choiceF choices) nm lab (some (FieldVal.vstr v))
        required read_only noneable
    else Except.error (PyErr.valueError msgChoiceInit)
  | none =>
    initField (FieldKind.choiceF choices) nm lab none required read_only noneable

/-- A field obtained from a successful `__init__` or by any number of
(possibly failing) `value` setter calls: the mutation footprint the source
allows on a live field's value. -/
inductive Evolved : FgField → Prop
  | ofInit (k : FieldKind) (nm lab : Str) (initial : Option FieldVal)
      (required read_only noneable : Bool) (f : FgField) :
      initField k nm lab initial required read_only noneable = Except.ok f → Evolved f
  | ofAssign (f : FgField) (v : Option FieldVal) : Evolved f → Evolved ((f.assign v).1)

/-- `Field.needs_value` (lines 105-106). -/
def needs_value (f : FgField) : Bool := f.required && f.value.isNone

/-- Python `str()` of a stored value (`str(self.value)` in `Field.to_repr`).
`str(True) = 'True'`, `str(False) = 'False'`. -/
def pyStr : FieldVal → Str
  | .vstr s => s
  | .vint n => intRepr n
  | .vbool b => if b then "True".data else "False".data

/-- `to_repr` with the subclass overrides (lines 108-111, 168-171, 202-205):
StrField escapes markdown, BoolField maps through `val2repr`, everything
else is `str(self.value)`.  (The off-diagonal kind/value combinations are
unreachable under the setter's type check and default to `str(value)`.) -/
def to_repr (f : FgField) (missingStr : Str) : Str :=
  match f.value with
  | none => missingStr
  | some v =>
    match f.kind with
    | .strF => escape_md (pyStr v)
    | .boolF rt rf =>
      match v with
      | .vbool b => if b then rt else rf
      | w => pyStr w
    | _ => pyStr v

/-- The plain-text form of a field's rendered value, i.e. `to_repr` after
the transport has resolved markdown escapes (StrField's escaping undone). -/
def plainValue (f : FgField) : Str :=
  match f.value with
  | none => []
  | some v =>
    match f.kind with
    | .boolF rt rf =>
      match v with
      | .vbool b => if b then rt else rf
      | w => pyStr w
    | _ => pyStr v

/-- `BoolField.repr2val` (line 200): inversion of the `{True: rt, False: rf}`
dict by a comprehension, so on a collision the later item (False) wins. -/
def repr2val (rt rf : Str) (s : Str) : Option Bool :=
  if s = rf then some false
  else if s = rt then some true
  else none

/-- Per-field metadata mappings (Python dicts of str to str, insertion
ordered, later duplicate keys overwriting earlier ones on lookup). -/
abbrev Meta := List (Str × Str)

/-- Python dict lookup on a key/value pair list: the last binding wins. -/
def metaLookup (m : Meta) (k : Str) : Option Str :=
  (m.reverse.find? fun p => p.1 = k).map fun p => p.2

/-- `get_meta` (lines 142-143, 284-286): empty for every field class except
DynamicChoiceField, which externalizes its joined choice list. -/
def get_meta (f : FgField) : Meta :=
  match f.kind with
  | .dynChoiceF cs => [(chsKey, joinC dynSep cs)]
  | _ => []

/-- `from_repr` with the subclass overrides (lines 113-126, 173-176,
207-214, 278-282): deep-copy the schema field, set the parsed value through
the setter, and for DynamicChoiceField recover the choice list from the
metadata dict (`meta['choices']` raising TypeError on a missing dict and
KeyError on a missing key, as in Python). -/
def from_repr (f : FgField) (text : Option Str) (meta : Option Meta) : Except PyErr FgField :=
  match f.kind with
  | .strF => assignE f (text.map FieldVal.vstr)
  | .intF =>
    match text with
    | none => assignE f none
    | some t =>
      match parseInt t with
      | none => Except.error (PyErr.valueError msgIntCast)
      | some n => assignE f (some (FieldVal.vint n))
  | .boolF rt rf =>
    match text with
    | none => assignE f none
    | some t =>
      match repr2val rt rf t with
      | none => Except.error PyErr.keyError
      | some b => assignE f (some (FieldVal.vbool b))
  | .choiceF _ => assignE f (text.map FieldVal.vstr)
  | .dynChoiceF _ =>
    match meta with
    | none => Except.error PyErr.typeError
    | some m =>
      match assignE f (text.map FieldVal.vstr) with
      | Except.error e => Except.error e
      | Except.ok f1 =>
        match metaLookup m chsKey with
        | none => Except.error PyErr.keyError
        | some cs => Except.ok { f1 with kind := FieldKind.dynChoiceF (splitC dynSep cs) }

/-- `get_field_icon` (lines 135-140); used by `to_message` for every field
class (BoolField only overrides `make_button`, not this). -/
def get_field_icon (f : FgField) : Str :=
  if f.read_only then readOnlyIcon
  else if needs_value f then missingIcon
  else editIcon

/-- `BoolField.make_button`'s icon (lines 220-226): the missing-value glyph
when a value is still needed, otherwise `val2repr[self.value]` — a KeyError
when the value is absent but not required. -/
def boolButtonIcon (f : FgField) : Except PyErr Str :=
  if needs_value f then Except.ok missingIcon
  else
    match f.kind, f.value with
    | FieldKind.boolF rt rf, some (FieldVal.vbool b) => Except.ok (if b then rt else rf)
    | FieldKind.boolF _ _, _ => Except.error PyErr.keyError
    | _, _ => Except.error PyErr.keyError

/-- Python `not value` on a field value (only ever reached with None or a
bool in the source): `not None = True`, `not b = ¬b`; for completeness the
other types use Python truthiness. -/
def pyNot : Option FieldVal → Bool
  | none => true
  | some (FieldVal.vbool b) => !b
  | some (FieldVal.vint n) => n = 0
  | some (FieldVal.vstr s) => s.isEmpty

/-- `BoolField._handle_edit` (lines 216-218): `self.value = not self.value`
through the setter (the subsequent `form.refresh` does not touch the value). -/
def toggleEdit (f : FgField) : FgField × Option PyErr :=
  f.assign (some (FieldVal.vbool (pyNot f.value)))

/-! ### Schema building (`FormMeta.__new__`, lines 323-380) -/

/-- A field as declared on a form class body, before `FormMeta` fills in
the attribute name and defaults the label. -/
structure FieldDecl where
  kind : FieldKind
  labelOpt : Option Str
  required : Bool
  read_only : Bool
  noneable : Bool
  value : Option FieldVal
deriving DecidableEq

/-- The label `FormMeta` gives a declared field (lines 336-338): the
declared label, or the attribute name when none was provided. -/
def effLabel (nm : Str) (d : FieldDecl) : Str := d.labelOpt.getD nm

/-- The field-collection loop of `FormMeta.__new__` (lines 334-345): set
each field's name to its attribute name and default its label.  The loop
has no failure path; duplicate labels are silently written over in
`_label_to_field`. -/
def buildFields (decls : List (Str × FieldDecl)) : List FgField :=
  decls.map fun p =>
    ⟨p.2.kind, p.1, effLabel p.1 p.2, p.2.required, p.2.read_only, p.2.noneable, p.2.value⟩

/-- `_label_to_field` (lines 334-343) as a lookup: successive dict stores
mean the last field declared with a label owns it. -/
def label_to_field (fields : List FgField) (lab : Str) : Option Str :=
  (fields.reverse.find? fun f => f.label = lab).map fun f => f.name

/-! ### Validation and the submit/cancel handlers -/

/-- Observable effects of a handler on the bot collaborator. -/
inductive Effect where
  | answerCallback (msg : Str)
  | editReplyMarkup
  | deleteMessage
  | submitCb
  | cancelCb
deriving DecidableEq

def msgFillAll : Str := "Fill all required fields first!".data

def msgValidation : Str := "Validation error!".data

/-- `BaseForm.validate` (lines 575-581): the required fields whose value is
absent, as the ordered name-to-field entries of `missing_fields`; raises
ValidationError exactly when that dict is non-empty. -/
def validate (form : List FgField) : Except (List (Str × FgField)) Unit :=
  let missing := (form.filter fun f => f.required && f.value.isNone).map fun f => (f.name, f)
  if missing.isEmpty then Except.ok () else Except.error missing

/-- `BaseForm.handle_submit` (lines 464-476): on a ValidationError the user
gets a transient callback answer and nothing else happens; on success the
keyboard is stripped (`close_form`) and the submit collaborator runs.
Returns the emitted effects and the (unchanged) form. -/
def handle_submit (form : List FgField) : List Effect × List FgField :=
  match validate form with
  | Except.error missing =>
    ([Effect.answerCallback (if missing.isEmpty then msgValidation else msgFillAll)], form)
  | Except.ok _ => ([Effect.editReplyMarkup, Effect.submitCb], form)

/-- `BaseForm.handle_cancel` (lines 478-482) with the transport's free-text
continuation table (telebot's `next_step_handlers`, keyed by chat id)
passed explicitly: `close_form` strips the keyboard, then the optional
cancel collaborator runs.  The continuation table is not touched. -/
def handle_cancel (hasCancelCb : Bool) (nextStep : List Nat) : List Effect × List Nat :=
  (Effect.editReplyMarkup :: (if hasCancelCb then [Effect.cancelCb] else []), nextStep)

/-- The module-level cancel handler registered by `FormMeta` (lines
354-357), bound to the reserved global cancel token: deletes the prompt
message and pops the chat's pending free-text continuation. -/
def globalCancel (chat : Nat) (nextStep : List Nat) : List Effect × List Nat :=
  ([Effect.deleteMessage], nextStep.filter fun c => c ≠ chat)

/-! ### The codec: encoding (`to_message`, lines 503-534) -/

/-- `pack_meta_as_link` (lines 503-505): the metadata link target. -/
def pack_meta_as_link (m : Meta) : Str :=
  metaLinkHead ++ joinC metaConcat (m.map fun p => p.1 ++ metaKvSep :: p.2)

/-- The meta container of a rendered line (lines 527-530): a bare meta char
when the field has no metadata, else the meta char as a markdown link whose
target packs the metadata. -/
def metaContainerMd (m : Meta) : Str :=
  if 0 < m.length then '[' :: metaChar :: ']' :: '(' :: (pack_meta_as_link m ++ [')'])
  else [metaChar]

/-- One line of `to_message` (lines 524-533):
icon + meta container + escaped label + separator + value representation. -/
def fieldLineMd (f : FgField) : Str :=
  get_field_icon f ++ metaContainerMd (get_meta f) ++ escape_md f.label ++ separator
    ++ to_repr f missing_value_str

/-- `BaseForm.to_message` (lines 522-534): newline-joined field lines, in
schema order, as a Markdown source string. -/
def to_message (form : List FgField) : Str := joinLines (form.map fieldLineMd)

/-! ### The transport (modelled from the spec)

Modelled from the spec: the chat transport is an external collaborator
(spec section 4.2 and section 6); it parses the Markdown body the codec sends and
hands the decoder two parallel views of the rendered message: a plain-text
view (escape sequences resolved, links replaced by their link text) and a
markup view exposing hyperlink targets as `<a href="...">` anchors, and it
trims trailing whitespace from the message.  The model renders line by
line, which is exact for the messages the codec produces (its markdown
constructs never span lines). -/

/-- Split a markdown link tail: after a `[`, the link text up to the first
`]`, then `(`, the target up to the first `)`.  (The head of a non-empty
`dropWhile (· ≠ c)` result is necessarily `c`, so matching on the list
shape suffices.) -/
def parseLinkTail (s : Str) : Option (Str × Str × Str) :=
  match s.dropWhile fun c => c ≠ ']' with
  | _ :: y :: rest2 =>
    if y = '(' then
      match rest2.dropWhile fun c => c ≠ ')' with
      | _ :: rest3 =>
        some (s.takeWhile fun c => c ≠ ']', rest2.takeWhile fun c => c ≠ ')', rest3)
      | [] => none
    else none
  | _ => none

/-- Fuelled markdown-to-plain-text rendering of one line (fuel at least the
length of the input always suffices). -/
def mdToTextF : Nat → Str → Str
  | 0, _ => []
  | _ + 1, [] => []
  | fuel + 1, c :: rest =>
    if c = '\\' then
      match rest with
      | [] => ['\\']
      | d :: rest2 => d :: mdToTextF fuel rest2
    else if c = '[' then
      match parseLinkTail rest with
      | some (txt, _, rest3) => txt ++ mdToTextF fuel rest3
      | none => c :: mdToTextF fuel rest
    else c :: mdToTextF fuel rest

/-- Plain-text rendering of one markdown line. -/
def mdToText (s : Str) : Str := mdToTextF s.length s

def htmlAOpen : Str := "<a href=".data ++ ['"']

def htmlAMid : Str := ['"', '>']

def htmlAClose : Str := "</a>".data

/-- Fuelled markdown-to-HTML rendering of one line: like the plain view but
links become `<a href="target">text</a>` anchors. -/
def mdToHtmlF : Nat → Str → Str
  | 0, _ => []
  | _ + 1, [] => []
  | fuel + 1, c :: rest =>
    if c = '\\' then
      match rest with
      | [] => ['\\']
      | d :: rest2 => d :: mdToHtmlF fuel rest2
    else if c = '[' then
      match parseLinkTail rest with
      | some (txt, url, rest3) => htmlAOpen ++ url ++ htmlAMid ++ txt ++ htmlAClose ++ mdToHtmlF fuel rest3
      | none => c :: mdToHtmlF fuel rest
    else c :: mdToHtmlF fuel rest

/-- HTML rendering of one markdown line. -/
def mdToHtml (s : Str) : Str := mdToHtmlF s.length s

/-- The plain-text view of the sent message (`message.text`): per-line
plain rendering, with the trailing whitespace trimmed by the transport. -/
def transportText (md : Str) : Str :=
  trimTrailing (joinLines ((splitLines md).map mdToText))

/-- The markup view of the sent message (`message.html_text`): per-line
HTML rendering, with the trailing whitespace trimmed by the transport. -/
def transportHtml (md : Str) : Str :=
  trimTrailing (joinLines ((splitLines md).map mdToHtml))

/-! ### The codec: decoding (`from_message`, lines 507-570) -/

/-- `extract_href_from_line` (lines 514-520): the regex `href="(.*?)"`,
i.e. the text between the first `href="` and the next `"`, if any. -/
def hrefMark : Str := "href=".data ++ ['"']

/-- First `href="..."` target of a line, `none` when the pattern does not
occur (no closing quote included). -/
def extract_href_from_line : Str → Option Str
  | [] => none
  | c :: rest =>
    if hrefMark.isPrefixOf (c :: rest) then
      let after := (c :: rest).drop hrefMark.length
      if after.any fun d => d = '"' then some (after.takeWhile fun d => d ≠ '"') else none
    else extract_href_from_line rest

/-- `parse_meta_from_link` (lines 507-512): strip the link prefix length,
return no metadata on an empty remainder, else split into key/value pairs —
`dict(...)` raises ValueError when a pair does not split in exactly two. -/
def parse_meta_from_link (link : Str) : Except PyErr (Option Meta) :=
  let metaStr := link.drop metaLinkHead.length
  if metaStr = [] then Except.ok none
  else
    let pairs := (splitC metaConcat metaStr).map fun p => splitC metaKvSep p
    if pairs.all fun p => p.length = 2 then
      Except.ok (some (pairs.map fun p => (p.headD [], (p.drop 1).headD [])))
    else Except.error (PyErr.valueError msgDictPairs)

/-- Python `str.find(ch)` for a single character: index of the first
occurrence, `none` standing for `-1`. -/
def findCharIdx (c : Char) : Str → Option Nat
  | [] => none
  | a :: rest => if a = c then some 0 else (findCharIdx c rest).map (· + 1)

/-- Lines 542-543: cut everything up to and including the first meta char
(`text_line.find` returning -1 leaves the line whole, since `line[0:]`). -/
def cutMeta (line : Str) : Str :=
  match findCharIdx metaChar line with
  | some i => line.drop (i + 1)
  | none => line

/-- The label/value split of one plain-text line (lines 545-554), including
the last-line disambiguation of the transport's trailing-whitespace trim:
when no separator is found on the last line, the line must end in the
separator stripped of whitespace (`':'`), in which case the value is the
missing-value token; indexing `text_line[-1]` on an empty line raises.  For
a non-last line without separator the source computes `text_line[:-1]` and
`text_line[1:]` (the Python `-1` find result used as a slice index). -/
def splitLabelValue (isLast : Bool) (afterMeta : Str) : Except PyErr (Str × Str) :=
  match findSubIdx separator afterMeta with
  | none =>
    if isLast then
      match afterMeta.getLast? with
      | none => Except.error PyErr.indexError
      | some c =>
        if c = ':' then Except.ok (afterMeta.dropLast, missing_value_str)
        else Except.error (PyErr.valueError msgCannotDeserialize)
    else Except.ok (afterMeta.dropLast, afterMeta.drop 1)
  | some i => Except.ok (afterMeta.take i, afterMeta.drop (i + separator.length))

/-- Decoding of one line of the message (the body of the `from_message`
loop, lines 540-568): split the plain line into label and value, recover
the metadata dict from the markup line's hyperlink (an empty href string is
falsy and yields no metadata), resolve the label through `_label_to_field`
and `fields_dict`, turn a missing-token value into an absent one, and build
the field with `from_repr`. -/
def decodeLine (fields : List FgField) (isLast : Bool) (textLine htmlLine : Str) :
    Except PyErr (Str × FgField) :=
  match splitLabelValue isLast (cutMeta textLine) with
  | Except.error e => Except.error e
  | Except.ok (lab, value) =>
    match
      (match extract_href_from_line htmlLine with
       | some href => if href = [] then Except.ok none else parse_meta_from_link href
       | none => Except.ok (none : Option Meta)) with
    | Except.error e => Except.error e
    | Except.ok meta =>
      match label_to_field fields lab with
      | none => Except.error PyErr.keyError
      | some fieldName =>
        match fields.find? fun f => f.name = fieldName with
        | none => Except.error PyErr.keyError
        | some tmpl =>
          let value' : Option Str := if value = missing_value_str then none else some value
          match from_repr tmpl value' meta with
          | Except.error e => Except.error e
          | Except.ok f => Except.ok (fieldName, f)

/-- The `from_message` loop over the zipped text/html lines, tracking the
line index to flag the last text line (`i == len(text_lines) - 1`). -/
def decodeLines (fields : List FgField) :
    List (Str × Str) → Nat → Nat → Except PyErr (List (Str × FgField))
  | [], _, _ => Except.ok []
  | (tl, hl) :: rest, i, total =>
    match decodeLine fields (i + 1 = total) tl hl with
    | Except.error e => Except.error e
    | Except.ok kv =>
      match decodeLines fields rest (i + 1) total with
      | Except.error e => Except.error e
      | Except.ok kvs => Except.ok (kv :: kvs)

/-- `BaseForm.from_message` (lines 536-570) followed by the generated
`__init__` (lines 289-312): decode each zipped line pair into a keyword
dict entry, then build the instance — every schema field takes the decoded
field stored under its name (a later duplicate overwriting an earlier one,
as in a dict), or a copy of its schema template when the name was never
produced. -/
def from_message (fields : List FgField) (text html : Str) : Except PyErr (List FgField) :=
  let tls := splitLines text
  let hls := splitLines html
  match decodeLines fields (tls.zip hls) 0 tls.length with
  | Except.error e => Except.error e
  | Except.ok kvs =>
    Except.ok (fields.map fun tmpl =>
      ((kvs.reverse.find? fun p => p.1 = tmpl.name).map Prod.snd).getD tmpl)

/-! ### Instances of a schema and hygiene side conditions

`instanceOfB tmpl f` says the live field `f` was produced from the schema
template `tmpl` by the mutations the protocol performs: value assignments,
plus — only for DynamicChoiceField — replacing the per-instance choice
list.  The hygiene predicates collect the side conditions under which the
wire format is unambiguous; they are the spec's own documented assumptions
(separator and metadata characters absent from labels and rendered values,
one-line-safe text). -/

def kindMatchB : FieldKind → FieldKind → Bool
  | FieldKind.dynChoiceF _, FieldKind.dynChoiceF _ => true
  | k1, k2 => k1 == k2

def instanceOfB (tmpl f : FgField) : Bool :=
  f.name == tmpl.name && f.label == tmpl.label && f.required == tmpl.required &&
  f.read_only == tmpl.read_only && f.noneable == tmpl.noneable &&
  kindMatchB tmpl.kind f.kind

/-- Pointwise `instanceOfB` between a schema and an instance field list. -/
def instListB : List FgField → List FgField → Bool
  | [], [] => true
  | t :: ts, f :: fs => instanceOfB t f && instListB ts fs
  | _, _ => false

/-- The last character of a string is not whitespace (vacuous when empty). -/
def lastNotWsB (s : Str) : Bool :=
  match s.getLast? with
  | none => true
  | some c => !(isWs c)

/-- Label hygiene: no separator occurrence, no backslash, single-line. -/
def labelHygB (lab : Str) : Bool :=
  (findSubIdx separator lab).isNone && !(lab.contains '\\') && !(lab.contains '\n')

/-- Rendered-value hygiene: no backslash, no link-opening bracket,
single-line, and no trailing whitespace the transport would trim away. -/
def valHygB (pv : Str) : Bool :=
  !(pv.contains '\\') && !(pv.contains '[') && !(pv.contains '\n') && lastNotWsB pv

/-- Dynamic-choice hygiene: a non-empty choice list whose entries avoid the
three metadata separator characters and the characters that would break
the link markup (quote, closing parenthesis) or the line split. -/
def choicesHygB (cs : List Str) : Bool :=
  !cs.isEmpty && cs.all fun x =>
    !(x.contains dynSep) && !(x.contains metaConcat) && !(x.contains metaKvSep) &&
    !(x.contains '"') && !(x.contains ')') && !(x.contains '\n')

/-- Full hygiene of one live field: label and rendered value are
unambiguous on the wire; a present value renders distinctly from the
missing-value token; a boolean field's two glyphs differ; a field without
metadata never shows a stray `href="` pattern; a dynamic-choice field's
choices survive the metadata channel. -/
def fieldHygB (f : FgField) : Bool :=
  labelHygB f.label && valHygB (plainValue f) &&
  (match f.value with
   | some _ => !(plainValue f).isEmpty
   | none => true) &&
  (match f.kind with
   | FieldKind.dynChoiceF cs => choicesHygB cs
   | FieldKind.boolF rt rf =>
     !(rt == rf) && (findSubIdx hrefMark (f.label ++ separator ++ plainValue f)).isNone
   | _ => (findSubIdx hrefMark (f.label ++ separator ++ plainValue f)).isNone)

/-- The stored value respects the declared type, and an absent value only
occurs on a noneable field (the setter's invariant). -/
def wellFormedB (f : FgField) : Bool :=
  match f.value with
  | none => f.noneable
  | some v => valType v == kindType f.kind

deriving instance DecidableEq for Except

/-! ### Concrete example fields (used by witnesses and counterexamples) -/

/-- A required StrField template named/labelled `name`. -/
def exStr : FgField := ⟨FieldKind.strF, "name".data, "Name".data, true, false, true, none⟩

/-- An optional IntField template named/labelled `age`. -/
def exInt : FgField := ⟨FieldKind.intF, "age".data, "age".data, false, false, true, none⟩

/-- A required BoolField template with the default glyph table. -/
def exBool : FgField :=
  ⟨FieldKind.boolF "✅".data "❌".data, "adm".data, "Is Admin".data, true, false, true, none⟩

/-- A DynamicChoiceField template: empty choice list in the schema. -/
def exDyn : FgField := ⟨FieldKind.dynChoiceF [], "day".data, "Day".data, true, false, true, none⟩

/-- A ChoiceField template with choices `a`, `b`. -/
def exChoice : FgField :=
  ⟨FieldKind.choiceF ["a".data, "b".data], "sex".data, "sex".data, false, false, true, none⟩

/-- A field declaration with explicit label `L` (for the duplicate-label schema). -/
def exDupDecl : FieldDecl := ⟨FieldKind.strF, some "L".data, false, false, true, none⟩

/-- The dynamic-choice field instance of claim C2: the `exDyn` template
with choices `1, 2, 3` assigned at runtime and value `2`. -/
def exDynInst : FgField :=
  { exDyn with kind := FieldKind.dynChoiceF ["1".data, "2".data, "3".data],
               value := some (FieldVal.vstr "2".data) }

/-! ### Derived line forms (used to state the codec lemmas) -/

/-- The plain-text view of one rendered field line: icon, bare meta char,
label, separator, plain value. -/
def plainLineOf (f : FgField) : Str :=
  get_field_icon f ++ metaChar :: (f.label ++ separator ++ plainValue f)

/-- The markup view of the meta container: a bare meta char, or an anchor
wrapping it whose target packs the metadata. -/
def htmlMetaPart (f : FgField) : Str :=
  if get_meta f = [] then [metaChar]
  else htmlAOpen ++ pack_meta_as_link (get_meta f) ++ htmlAMid ++ metaChar :: htmlAClose

/-- The markup view of one rendered field line. -/
def htmlLineOf (f : FgField) : Str :=
  get_field_icon f ++ htmlMetaPart f ++ (f.label ++ separator ++ plainValue f)

/-- The metadata dict the decoder recovers for a field: the packed
`get_meta` for a dynamic-choice field, nothing for every other kind. -/
def metaDecoded (f : FgField) : Option Meta :=
  match f.kind with
  | FieldKind.dynChoiceF _ => some (get_meta f)
  | _ => none

/-- The plain-text lines of a rendered form as the decoder receives them:
the transport's trailing trim only reaches the last line. -/
def textLinesOf : List FgField → List Str
  | [] => []
  | [f] => [trimTrailing (plainLineOf f)]
  | f :: rest => plainLineOf f :: textLinesOf rest

/-- The markup lines of a rendered form as the decoder receives them. -/
def htmlLinesOf : List FgField → List Str
  | [] => []
  | [f] => [trimTrailing (htmlLineOf f)]
  | f :: rest => htmlLineOf f :: htmlLinesOf rest

/-! ## Theorems -/

/-! ### Claim C9: the value setter's invariant -/

theorem assign_ok_value (f : FgField) (v : Option FieldVal) (h : (f.assign v).2 = none) :
    (f.assign v).1.value = v := by
  unfold FgField.assign at *
  cases hc : assignCheck f v with
  | none => simp [hc]
  | some e => simp [hc] at h

theorem assignCheck_none_iff (f : FgField) (v : Option FieldVal) :
    assignCheck f v = none ↔
      (v = none ∧ f.noneable = true) ∨ (∃ x, v = some x ∧ valType x = kindType f.kind) := by
  unfold assignCheck
  cases v with
  | none => cases h : f.noneable <;> simp [h]
  | some x =>
    by_cases h : valType x = kindType f.kind <;> simp [h]

/-- C9: after any assignment through the `Field.value` setter the stored
value is either absent or exactly of the field's declared type (and equals
the requested value); a failing assignment leaves the field, hence its
stored value, unchanged; and `needs_value()` holds iff the field is
required and its value is absent. -/
theorem c9_value_setter_invariant (f : FgField) (v : Option FieldVal) :
    ((f.assign v).2 = none →
      (f.assign v).1.value = v ∧ (v = none ∨ ∃ x, v = some x ∧ valType x = kindType f.kind)) ∧
    ((f.assign v).2 ≠ none → (f.assign v).1 = f) ∧
    (wellFormedB f = true → wellFormedB (f.assign v).1 = true) ∧
    (needs_value f = true ↔ f.required = true ∧ f.value = none) := by
  refine ⟨?_, ?_, ?_, ?_⟩
  · intro h
    refine ⟨assign_ok_value f v h, ?_⟩
    have hc : assignCheck f v = none := by
      unfold FgField.assign at h
      cases hc : assignCheck f v with
      | none => rfl
      | some e => simp [hc] at h
    rcases (assignCheck_none_iff f v).mp hc with ⟨h1, _⟩ | ⟨x, h1, h2⟩
    · exact Or.inl h1
    · exact Or.inr ⟨x, h1, h2⟩
  · intro h
    unfold FgField.assign at *
    cases hc : assignCheck f v with
    | none => simp [hc] at h
    | some e => simp [hc]
  · intro hwf
    unfold FgField.assign
    cases hc : assignCheck f v with
    | some e => simpa using hwf
    | none =>
      rcases (assignCheck_none_iff f v).mp hc with ⟨h1, h2⟩ | ⟨x, h1, h2⟩
      · subst h1; simpa [wellFormedB] using h2
      · subst h1; simp [wellFormedB, h2]
  · simp [needs_value, Bool.and_eq_true, Option.isNone_iff_eq_none]

theorem c9_witness :
    ((exStr.assign (some (FieldVal.vstr "x".data))).2 = none →
      (exStr.assign (some (FieldVal.vstr "x".data))).1.value = some (FieldVal.vstr "x".data) ∧
        (some (FieldVal.vstr "x".data) = none ∨
          ∃ x, some (FieldVal.vstr "x".data) = some x ∧ valType x = kindType exStr.kind)) ∧
    (needs_value exStr = true ↔ exStr.required = true ∧ exStr.value = none) := by
  have h := c9_value_setter_invariant exStr (some (FieldVal.vstr "x".data))
  exact ⟨h.1, h.2.2.2⟩

/-! ### Claim C10: non-noneable fields are never absent -/

/-- C10: constructing a field declared `noneable=False` with an absent
initial value fails; setting such a field's value to None fails and leaves
it unchanged; consequently no field reachable from `__init__` by setter
calls is both non-noneable and absent. -/
theorem c10_non_noneable_never_absent :
    (∀ k nm lab required read_only,
      initField k nm lab none required read_only false
        = Except.error (PyErr.valueError msgInitNone)) ∧
    (∀ f : FgField, f.noneable = false →
      (f.assign none).2 = some (PyErr.valueError msgNoneNotAllowed) ∧ (f.assign none).1 = f) ∧
    (∀ f : FgField, Evolved f → f.noneable = false → f.value ≠ none) := by
  refine ⟨?_, ?_, ?_⟩
  · intro k nm lab required read_only
    unfold initField
    simp
  · intro f h
    unfold FgField.assign assignCheck
    simp [h]
  · intro f hev
    induction hev with
    | ofInit k nm lab initial required read_only noneable f h =>
      intro hnon hval
      unfold initField at h
      by_cases hcond : initial = none ∧ noneable = false
      · simp [hcond] at h
      · simp only [hcond, if_false] at h
        cases hc : assignCheck ⟨k, nm, lab, required, read_only, noneable, none⟩ initial with
        | none =>
          simp [FgField.assign, hc] at h
          have hval' : f.value = initial := by rw [← h]
          have hnon' : f.noneable = noneable := by rw [← h]
          apply hcond
          exact ⟨by rw [← hval', hval], by rw [← hnon', hnon]⟩
        | some e => simp [FgField.assign, hc] at h
    | ofAssign f v hf ih =>
      intro hnon hval
      unfold FgField.assign at hnon hval
      cases hc : assignCheck f v with
      | none =>
        simp [hc] at hnon hval
        subst hval
        rcases (assignCheck_none_iff f none).mp hc with ⟨_, h2⟩ | ⟨x, h1, _⟩
        · rw [hnon] at h2; exact Bool.false_ne_true h2
        · exact Option.noConfusion h1
      | some e =>
        simp [hc] at hnon hval
        exact ih hnon hval

theorem c10_witness :
    initField FieldKind.strF "n".data "n".data none false false false
        = Except.error (PyErr.valueError msgInitNone) ∧
      ∀ f : FgField, Evolved f → f.noneable = false → f.value ≠ none := by
  have h := c10_non_noneable_never_absent
  exact ⟨h.1 FieldKind.strF "n".data "n".data false false, h.2.2⟩

/-! ### Claim C8: boolean toggle involution -/

/-- C8 counterexample: a boolean field whose value is absent is not
restored by toggling twice — `not None` is `True` in Python, so the value
goes absent → True → False, and the button glyph goes from the
missing-value icon to the False glyph. -/
theorem c8_counterexample :
    exBool.value = none ∧
    (toggleEdit (toggleEdit exBool).1).1.value = some (FieldVal.vbool false) ∧
    boolButtonIcon exBool = Except.ok missingIcon ∧
    boolButtonIcon (toggleEdit (toggleEdit exBool).1).1 = Except.ok "❌".data := by
  decide

/-- C8 amended: for every boolean field whose value is present (an actual
bool — not absent), applying the toggle edit twice restores the original
field, in particular its value and its rendered button icon. -/
theorem c8_toggle_involution (f : FgField) (rt rf : Str) (b : Bool)
    (hk : f.kind = FieldKind.boolF rt rf) (hv : f.value = some (FieldVal.vbool b)) :
    (toggleEdit (toggleEdit f).1).1 = f ∧
    boolButtonIcon (toggleEdit (toggleEdit f).1).1 = boolButtonIcon f := by
  obtain ⟨k, nm, lab, req, ro, non, val⟩ := f
  simp only [FgField.mk.injEq] at hk hv ⊢
  subst hk
  subst hv
  have h1 : (toggleEdit ⟨FieldKind.boolF rt rf, nm, lab, req, ro, non,
      some (FieldVal.vbool b)⟩).1
      = ⟨FieldKind.boolF rt rf, nm, lab, req, ro, non, some (FieldVal.vbool (!b))⟩ := by
    simp [toggleEdit, pyNot, FgField.assign, assignCheck, valType, kindType]
  rw [h1]
  have h2 : (toggleEdit ⟨FieldKind.boolF rt rf, nm, lab, req, ro, non,
      some (FieldVal.vbool (!b))⟩).1
      = ⟨FieldKind.boolF rt rf, nm, lab, req, ro, non, some (FieldVal.vbool b)⟩ := by
    simp [toggleEdit, pyNot, FgField.assign, assignCheck, valType, kindType]
  rw [h2]
  exact ⟨rfl, rfl⟩

theorem c8_witness :
    (toggleEdit (toggleEdit { exBool with value := some (FieldVal.vbool true) }).1).1
      = { exBool with value := some (FieldVal.vbool true) } := by
  exact (c8_toggle_involution { exBool with value := some (FieldVal.vbool true) }
    "✅".data "❌".data true (by decide) (by decide)).1

/-! ### Claim C6: choice fields and decode-time validation -/

/-- C6 counterexample: a ChoiceField with choices `a, b` accepts the text
value `z` during decode — `from_repr` stores it even though it is not a
choice (neither `ChoiceField` nor `Field` checks membership on parse). -/
theorem c6_counterexample :
    from_repr exChoice (some "z".data) none
      = Except.ok { exChoice with value := some (FieldVal.vstr "z".data) } ∧
    "z".data ∉ ["a".data, "b".data] := by
  decide

/-- C6 amended: parsing a text value during decode performs no
choice-membership validation — any string is stored verbatim as the
field's value; only `ChoiceField.__init__` validates the initial value
against the choices. -/
theorem c6_choice_no_parse_validation (f : FgField) (cs : List Str) (t : Str)
    (m : Option Meta) (hk : f.kind = FieldKind.choiceF cs) :
    from_repr f (some t) m = Except.ok { f with value := some (FieldVal.vstr t) } ∧
    (∀ nm lab v required read_only noneable, v ∉ cs →
      initChoiceField cs nm lab (some v) required read_only noneable
        = Except.error (PyErr.valueError msgChoiceInit)) := by
  constructor
  · simp [from_repr, hk, assignE, FgField.assign, assignCheck, valType, kindType]
  · intro nm lab v required read_only noneable hv
    simp [initChoiceField, hv]

theorem c6_witness :
    from_repr exChoice (some "a".data) none
      = Except.ok { exChoice with value := some (FieldVal.vstr "a".data) } ∧
    initChoiceField ["a".data, "b".data] "sex".data "sex".data (some "q".data) false false true
      = Except.error (PyErr.valueError msgChoiceInit) := by
  have h := c6_choice_no_parse_validation exChoice ["a".data, "b".data] "a".data none (by decide)
  exact ⟨h.1, h.2 "sex".data "sex".data "q".data false false true (by decide)⟩

/-! ### Claim C4: duplicate labels at schema build time -/

/-- C4 counterexample: a schema with two fields sharing the label `L`
builds without any failure (the collection loop of `FormMeta.__new__` has
no failure path) and its label index silently resolves `L` to the second
field only. -/
theorem c4_counterexample :
    label_to_field (buildFields [("f1".data, exDupDecl), ("f2".data, exDupDecl)]) "L".data
      = some "f2".data ∧
    effLabel "f1".data exDupDecl = "L".data ∧
    ("f2".data : Str) ≠ "f1".data := by
  decide

/-- C4 amended: building a schema with duplicate labels does not fail;
the label-to-field-name index maps a label to the last field declared with
it (each dict store overwrites the previous one), so the earlier
same-labelled fields are unreachable by label. -/
theorem c4_duplicate_label_last_wins (pre post : List (Str × FieldDecl)) (n : Str)
    (d : FieldDecl) (h : ∀ p ∈ post, effLabel p.1 p.2 ≠ effLabel n d) :
    label_to_field (buildFields (pre ++ (n, d) :: post)) (effLabel n d) = some n := by
  unfold label_to_field buildFields
  rw [List.map_append, List.map_cons, List.reverse_append, List.reverse_cons]
  rw [List.find?_append, List.find?_append]
  have hpost : ((post.map fun p =>
      (⟨p.2.kind, p.1, effLabel p.1 p.2, p.2.required, p.2.read_only, p.2.noneable,
        p.2.value⟩ : FgField)).reverse.find? fun f => f.label = effLabel n d) = none := by
    rw [List.find?_eq_none]
    intro x hx
    rw [List.mem_reverse, List.mem_map] at hx
    obtain ⟨p, hp, rfl⟩ := hx
    simpa using h p hp
  rw [hpost]
  simp

theorem c4_witness :
    label_to_field (buildFields [("f1".data, exDupDecl), ("g".data, exDupDecl)])
      (effLabel "g".data exDupDecl) = some "g".data := by
  exact c4_duplicate_label_last_wins [("f1".data, exDupDecl)] [] "g".data exDupDecl
    (by decide)

/-! ### Claim C5: submit gating on required fields -/

/-- C5: submitting a form with at least one required field absent raises a
ValidationError whose missing-fields collection is exactly the required
fields with absent values, as an order-preserving selection of the schema
order (a sublist of the form); `handle_submit` answers the callback with
only a transient error message and changes neither the form nor the
rendered message (no edit or send effect is emitted). -/
theorem c5_submit_gating (form : List FgField)
    (h : ∃ f ∈ form, f.required = true ∧ f.value = none) :
    ∃ l, validate form = Except.error l ∧
      l ≠ [] ∧
      ((l.map Prod.snd).Sublist form) ∧
      (∀ f : FgField, ((f.name, f) ∈ l ↔ f ∈ form ∧ f.required = true ∧ f.value = none)) ∧
      handle_submit form = ([Effect.answerCallback msgFillAll], form) := by
  obtain ⟨f0, hf0, hreq, hval⟩ := h
  have hmem : f0 ∈ form.filter fun f => f.required && f.value.isNone := by
    rw [List.mem_filter]
    exact ⟨hf0, by simp [hreq, hval]⟩
  have hne : (form.filter fun f => f.required && f.value.isNone) ≠ [] :=
    List.ne_nil_of_mem hmem
  have hval' : validate form
      = Except.error ((form.filter fun f => f.required && f.value.isNone).map
          fun f => (f.name, f)) := by
    unfold validate
    rw [if_neg]
    simp [List.isEmpty_iff, hne]
  refine ⟨_, hval', ?_, ?_, ?_, ?_⟩
  · simp [List.map_eq_nil_iff, hne]
  · have : ((form.filter fun f => f.required && f.value.isNone).map
        (fun f => (f.name, f))).map Prod.snd
        = form.filter fun f => f.required && f.value.isNone := by
      rw [List.map_map]; simp [Function.comp_def]
    rw [this]
    exact List.filter_sublist form
  · intro f
    constructor
    · intro hin
      rw [List.mem_map] at hin
      obtain ⟨g, hg, hgf⟩ := hin
      rw [Prod.mk.injEq] at hgf
      obtain ⟨-, rfl⟩ := hgf
      rw [List.mem_filter] at hg
      refine ⟨hg.1, ?_, ?_⟩
      · have := hg.2; simp [Bool.and_eq_true] at this; exact this.1
      · have := hg.2; simp [Bool.and_eq_true, Option.isNone_iff_eq_none] at this
        exact this.2
    · intro ⟨hmem', hreq', hval''⟩
      rw [List.mem_map]
      exact ⟨f, by rw [List.mem_filter]; exact ⟨hmem', by simp [hreq', hval'']⟩, rfl⟩
  · unfold handle_submit
    rw [hval']
    have : ¬((form.filter fun f => f.required && f.value.isNone).map
        (fun f => (f.name, f))).isEmpty = true := by
      simp [List.isEmpty_iff, hne]
    simp only [List.isEmpty_eq_true] at this ⊢
    rw [if_neg this]

theorem c5_witness :
    handle_submit [exStr] = ([Effect.answerCallback msgFillAll], [exStr]) := by
  obtain ⟨l, h1, h2, h3, h4, h5⟩ :=
    c5_submit_gating [exStr] ⟨exStr, by decide, by decide, by decide⟩
  exact h5

/-! ### Claim C7: the form's CANCEL action and the free-text continuation -/

/-- C7 counterexample: with a free-text continuation pending for chat 5,
dispatching the form's CANCEL action leaves that registration in place —
`handle_cancel` only strips the keyboard and calls the cancel collaborator;
it never touches the transport's `next_step_handlers` table, so a
subsequent free-text message in the conversation still reaches the stale
continuation. -/
theorem c7_counterexample :
    (handle_cancel true [5]).2 = [5] ∧ (5 : Nat) ∈ (handle_cancel true [5]).2 ∧
    (handle_cancel true [5]).1 = [Effect.editReplyMarkup, Effect.cancelCb] := by
  decide

/-- C7 amended: the form's CANCEL action strips the inline keyboard and
invokes the cancel collaborator exactly when one is configured, but it
does not release a pending free-text-edit continuation — the continuation
table is returned unchanged.  Releasing the continuation is done only by
the separate module-level cancel handler bound to the reserved global
cancel token, which deletes its prompt and pops the chat's registration. -/
theorem c7_cancel_keeps_continuation (hasCb : Bool) (table : List Nat) (chat : Nat) :
    Effect.editReplyMarkup ∈ (handle_cancel hasCb table).1 ∧
    (Effect.cancelCb ∈ (handle_cancel hasCb table).1 ↔ hasCb = true) ∧
    (handle_cancel hasCb table).2 = table ∧
    chat ∉ (globalCancel chat table).2 ∧
    (∀ c, c ≠ chat → (c ∈ (globalCancel chat table).2 ↔ c ∈ table)) := by
  refine ⟨?_, ?_, rfl, ?_, ?_⟩
  · simp [handle_cancel]
  · cases hasCb <;> simp [handle_cancel]
  · simp [globalCancel]
  · intro c hc
    simp [globalCancel, List.mem_filter, hc]

theorem c7_witness :
    (handle_cancel false [7, 9]).2 = [7, 9] ∧ (9 : Nat) ∉ (globalCancel 9 [7, 9]).2 := by
  have h := c7_cancel_keeps_continuation false [7, 9] 9
  exact ⟨h.2.2.1, h.2.2.2.1⟩

/-! ### Claim C2: dynamic choice survival (concrete round trip) -/

/-- C2: a DynamicChoiceField assigned choices `1, 2, 3` and value `2`,
rendered with `to_message` and decoded with `from_message` through the
transport's dual text/markup views, reconstructs a field whose choices are
exactly `1, 2, 3` and whose value is `2`, although the schema template
carries an empty choice list. -/
theorem c2_dynamic_choice_survival :
    from_message [exDyn] (transportText (to_message [exDynInst]))
        (transportHtml (to_message [exDynInst]))
      = Except.ok [exDynInst] ∧
    exDynInst.kind = FieldKind.dynChoiceF ["1".data, "2".data, "3".data] ∧
    exDynInst.value = some (FieldVal.vstr "2".data) ∧
    exDyn.kind = FieldKind.dynChoiceF [] := by
  decide

/-! ### Decimal digit lemmas -/

theorem natDigitsF_irrel (f1 : Nat) : ∀ (f2 n : Nat), n < f1 → n < f2 →
    natDigitsF f1 n = natDigitsF f2 n := by
  induction f1 with
  | zero => intro f2 n h1 _; omega
  | succ f1' ih =>
    intro f2 n h1 h2
    cases f2 with
    | zero => omega
    | succ f2' =>
      show natDigitsF (f1' + 1) n = natDigitsF (f2' + 1) n
      unfold natDigitsF
      by_cases h : n < 10
      · simp [h]
      · simp only [h, if_false]
        rw [ih f2' (n / 10) (by omega) (by omega)]

theorem natDigits_unfold (n : Nat) :
    natDigits n = if n < 10 then [digitChar n] else natDigits (n / 10) ++ [digitChar (n % 10)] := by
  unfold natDigits
  conv_lhs => rw [natDigitsF]
  by_cases h : n < 10
  · simp [h]
  · simp only [h, if_false]
    rw [natDigitsF_irrel n (n / 10 + 1) (n / 10) (by omega) (by omega)]

theorem natDigits_ne_nil (n : Nat) : natDigits n ≠ [] := by
  rw [natDigits_unfold]
  by_cases h : n < 10 <;> simp [h]

theorem digitChar_range (m : Nat) (h : m < 10) :
    48 ≤ (digitChar m).toNat ∧ (digitChar m).toNat ≤ 57 := by
  interval_cases m <;> decide

theorem mem_natDigits (n : Nat) : ∀ c ∈ natDigits n, 48 ≤ c.toNat ∧ c.toNat ≤ 57 := by
  induction n using Nat.strong_induction_on with
  | _ n ih =>
    intro c hc
    rw [natDigits_unfold] at hc
    by_cases h : n < 10
    · simp [h] at hc
      subst hc
      exact digitChar_range n h
    · simp only [h, if_false, List.mem_append, List.mem_singleton] at hc
      rcases hc with hc | hc
      · exact ih (n / 10) (by omega) c hc
      · subst hc
        exact digitChar_range (n % 10) (Nat.mod_lt n (by omega))

theorem digitVal_digitChar (m : Nat) (h : m < 10) : digitVal (digitChar m) = some m := by
  interval_cases m <;> decide

theorem foldl_pushDigit_natDigits (n : Nat) : ∀ acc : Nat,
    (natDigits n).foldl pushDigit (some acc)
      = some (acc * 10 ^ (natDigits n).length + n) := by
  induction n using Nat.strong_induction_on with
  | _ n ih =>
    intro acc
    rw [natDigits_unfold]
    by_cases h : n < 10
    · simp only [h, if_true, List.foldl_cons, List.foldl_nil, List.length_singleton]
      simp [pushDigit, digitVal_digitChar n h]
    · simp only [h, if_false, List.foldl_append, List.foldl_cons, List.foldl_nil,
        List.length_append, List.length_singleton]
      rw [ih (n / 10) (by omega) acc]
      simp only [pushDigit, digitVal_digitChar (n % 10) (Nat.mod_lt n (by omega)),
        Option.some_bind, Option.map_some', Option.some.injEq]
      have h10 : 10 ^ ((natDigits (n / 10)).length + 1)
          = 10 ^ (natDigits (n / 10)).length * 10 := by
        rw [pow_succ]
      rw [h10]
      have hmod : n / 10 * 10 + n % 10 = n := by omega
      calc (acc * 10 ^ (natDigits (n / 10)).length + n / 10) * 10 + n % 10
          = acc * (10 ^ (natDigits (n / 10)).length * 10) + (n / 10 * 10 + n % 10) := by ring
        _ = acc * (10 ^ (natDigits (n / 10)).length * 10) + n := by rw [hmod]

theorem parseDigits_natDigits (n : Nat) : parseDigits (natDigits n) = some n := by
  unfold parseDigits
  rw [if_neg (by simp [List.isEmpty_iff, natDigits_ne_nil n])]
  rw [foldl_pushDigit_natDigits n 0]
  simp

theorem parseInt_cons_ne (c : Char) (r : Str) (h : c ≠ '-') :
    parseInt (c :: r) = (parseDigits (c :: r)).map fun m => (m : Int) := by
  unfold parseInt
  split
  next heq => rw [List.cons.injEq] at heq; exact absurd heq.1 h
  next => rfl

theorem parseInt_minus (r : Str) :
    parseInt ('-' :: r) = (parseDigits r).map fun m => -(m : Int) := by
  rfl

theorem parseInt_intRepr (n : Int) : parseInt (intRepr n) = some n := by
  unfold intRepr
  by_cases h : n < 0
  · rw [if_pos h, parseInt_minus, parseDigits_natDigits]
    simp only [Option.bind_eq_bind, Option.some_bind, Option.pure_def, Option.map_some',
      Option.some.injEq]
    omega
  · rw [if_neg h]
    cases hd : natDigits n.toNat with
    | nil => exact absurd hd (natDigits_ne_nil n.toNat)
    | cons c r =>
      have hc : c ≠ '-' := by
        have := mem_natDigits n.toNat c (by rw [hd]; exact List.mem_cons_self c r)
        intro hcon
        subst hcon
        revert this
        decide
      rw [parseInt_cons_ne c r hc, ← hd, parseDigits_natDigits]
      simp only [Option.bind_eq_bind, Option.some_bind, Option.pure_def, Option.map_some',
      Option.some.injEq]
      omega

/-- The characters of a rendered integer: digits or the minus sign. -/
theorem mem_intRepr (n : Int) : ∀ c ∈ intRepr n, (48 ≤ c.toNat ∧ c.toNat ≤ 57) ∨ c = '-' := by
  unfold intRepr
  by_cases h : n < 0
  · rw [if_pos h]
    intro c hc
    rcases List.mem_cons.mp hc with rfl | hc
    · exact Or.inr rfl
    · exact Or.inl (mem_natDigits _ c hc)
  · rw [if_neg h]
    intro c hc
    exact Or.inl (mem_natDigits _ c hc)

/-! ### Split/join, substring search, prefix and trim lemmas -/

theorem isPrefixOf_append_self (p t : Str) : p.isPrefixOf (p ++ t) = true := by
  induction p with
  | nil => simp [List.isPrefixOf]
  | cons c p' ih => simp [List.isPrefixOf, ih]

theorem isPrefixOf_mono (p l t : Str) (h : p.isPrefixOf l = true) :
    p.isPrefixOf (l ++ t) = true := by
  induction p generalizing l with
  | nil => simp [List.isPrefixOf]
  | cons c p' ih =>
    cases l with
    | nil => simp [List.isPrefixOf] at h
    | cons a l' =>
      simp only [List.isPrefixOf, Bool.and_eq_true, beq_iff_eq] at h ⊢
      exact ⟨h.1, ih l' h.2⟩

theorem joinC_singleton (c : Char) (x : Str) : joinC c [x] = x := by
  simp [joinC, List.intercalate, List.intersperse]

theorem joinC_cons2 (c : Char) (x y : Str) (t : List Str) :
    joinC c (x :: y :: t) = x ++ c :: joinC c (y :: t) := by
  simp [joinC, List.intercalate, List.intersperse]

theorem mem_joinC (c : Char) (l : List Str) (d : Char) (h : d ∈ joinC c l) :
    d = c ∨ ∃ x ∈ l, d ∈ x := by
  induction l with
  | nil => simp [joinC, List.intercalate] at h
  | cons x t ih =>
    cases t with
    | nil =>
      rw [joinC_singleton] at h
      exact Or.inr ⟨x, List.mem_cons_self x [], h⟩
    | cons y t' =>
      rw [joinC_cons2] at h
      rcases List.mem_append.mp h with h | h
      · exact Or.inr ⟨x, List.mem_cons_self x _, h⟩
      · rcases List.mem_cons.mp h with rfl | h
        · exact Or.inl rfl
        · rcases ih h with h | ⟨z, hz, hd⟩
          · exact Or.inl h
          · exact Or.inr ⟨z, List.mem_cons_of_mem x hz, hd⟩

theorem splitC_not_mem (c : Char) (s : Str) (h : c ∉ s) : splitC c s = [s] := by
  induction s with
  | nil => rfl
  | cons a rest ih =>
    have ha : a ≠ c := fun hc => h (hc ▸ List.mem_cons_self a rest)
    have hr : c ∉ rest := fun hc => h (List.mem_cons_of_mem a hc)
    unfold splitC
    rw [if_neg ha, ih hr]

theorem splitC_cons_ne (c a : Char) (rest : Str) (h : a ≠ c) :
    splitC c (a :: rest)
      = match splitC c rest with
        | s :: ss => (a :: s) :: ss
        | [] => [[a]] := by
  conv_lhs => rw [splitC]
  rw [if_neg h]

theorem splitC_append_sep (c : Char) (x t : Str) (h : c ∉ x) :
    splitC c (x ++ c :: t) = x :: splitC c t := by
  induction x with
  | nil => simp [splitC]
  | cons a x' ih =>
    have ha : a ≠ c := fun hc => h (hc ▸ List.mem_cons_self a x')
    have hx : c ∉ x' := fun hc => h (List.mem_cons_of_mem a hc)
    show splitC c (a :: (x' ++ c :: t)) = (a :: x') :: splitC c t
    rw [splitC_cons_ne c a _ ha, ih hx]

theorem splitC_ne_nil (c : Char) (s : Str) : splitC c s ≠ [] := by
  cases s with
  | nil => simp [splitC]
  | cons a rest =>
    unfold splitC
    by_cases h : a = c
    · simp [h]
    · rw [if_neg h]
      cases hs : splitC c rest with
      | nil => simp
      | cons u us => simp

theorem splitC_joinC (c : Char) (l : List Str) (hne : l ≠ []) (h : ∀ x ∈ l, c ∉ x) :
    splitC c (joinC c l) = l := by
  induction l with
  | nil => exact absurd rfl hne
  | cons x t ih =>
    cases t with
    | nil =>
      rw [joinC_singleton]
      exact splitC_not_mem c x (h x (List.mem_cons_self x []))
    | cons y t' =>
      rw [joinC_cons2, splitC_append_sep c x _ (h x (List.mem_cons_self x _))]
      rw [ih (by simp) (fun z hz => h z (List.mem_cons_of_mem x hz))]

theorem findCharIdx_append (c : Char) (a rest : Str) (h : c ∉ a) :
    findCharIdx c (a ++ c :: rest) = some a.length := by
  induction a with
  | nil => simp [findCharIdx]
  | cons b a' ih =>
    have hb : b ≠ c := fun hc => h (hc ▸ List.mem_cons_self b a')
    have ha : c ∉ a' := fun hc => h (List.mem_cons_of_mem b hc)
    show findCharIdx c (b :: (a' ++ c :: rest)) = some (a'.length + 1)
    unfold findCharIdx
    rw [if_neg hb, ih ha]
    rfl

theorem cutMeta_append (a rest : Str) (h : metaChar ∉ a) :
    cutMeta (a ++ metaChar :: rest) = rest := by
  unfold cutMeta
  rw [findCharIdx_append metaChar a rest h]
  show (a ++ metaChar :: rest).drop (a.length + 1) = rest
  have h1 : a ++ metaChar :: rest = (a ++ [metaChar]) ++ rest := by simp
  have h2 : a.length + 1 = (a ++ [metaChar]).length := by simp
  rw [h1, h2, List.drop_left]

theorem separator_chars : separator = ':' :: ' ' :: [] := by decide

theorem hrefMark_chars : hrefMark = 'h' :: 'r' :: 'e' :: 'f' :: '=' :: '"' :: [] := by decide

theorem findSubIdx_cons (pat : Str) (c : Char) (rest : Str) :
    findSubIdx pat (c :: rest)
      = if pat.isPrefixOf (c :: rest) then some 0 else (findSubIdx pat rest).map (· + 1) := by
  conv_lhs => rw [findSubIdx]

theorem findSubIdx_cons_split (pat : Str) (c : Char) (rest : Str)
    (h : findSubIdx pat (c :: rest) = none) :
    pat.isPrefixOf (c :: rest) = false ∧ findSubIdx pat rest = none := by
  rw [findSubIdx_cons] at h
  by_cases hp : pat.isPrefixOf (c :: rest)
  · rw [if_pos hp] at h; exact absurd h (by simp)
  · rw [if_neg hp] at h
    exact ⟨by simp [hp], by simpa using h⟩

theorem sep_isPrefixOf_cons2 (x y : Char) (r : Str) :
    separator.isPrefixOf (x :: y :: r) = ((':' : Char) == x && (' ' : Char) == y) := by
  rw [separator_chars]
  simp only [List.isPrefixOf, List.isPrefixOf_nil_left, Bool.and_true]

theorem sep_isPrefixOf_short (x : Char) : separator.isPrefixOf [x] = false := by
  rw [separator_chars]
  simp [List.isPrefixOf]

theorem findSubIdx_sep_nil : findSubIdx separator [] = none := by decide

theorem findSub_sep_mid : ∀ (lab v : Str), findSubIdx separator lab = none →
    findSubIdx separator (lab ++ ':' :: ' ' :: v) = some lab.length := by
  intro lab
  induction lab with
  | nil =>
    intro v _
    rw [List.nil_append, findSubIdx_cons,
      if_pos (by rw [sep_isPrefixOf_cons2]; simp)]
    simp
  | cons a lab' ih =>
    intro v h
    obtain ⟨hpre, htail⟩ := findSubIdx_cons_split separator a lab' h
    rw [List.cons_append, findSubIdx_cons, if_neg, ih v htail]
    · rfl
    · intro hcon
      cases lab' with
      | nil =>
        rw [List.nil_append, sep_isPrefixOf_cons2] at hcon
        simp at hcon
      | cons b lab'' =>
        rw [List.cons_append, sep_isPrefixOf_cons2] at hcon
        rw [sep_isPrefixOf_cons2] at hpre
        rw [hcon] at hpre
        simp at hpre

theorem findSub_sep_append_colon : ∀ lab : Str, findSubIdx separator lab = none →
    findSubIdx separator (lab ++ [':']) = none := by
  intro lab
  induction lab with
  | nil =>
    intro _
    rw [List.nil_append, findSubIdx_cons, if_neg]
    · simp [findSubIdx_sep_nil]
    · rw [sep_isPrefixOf_short]; simp
  | cons a lab' ih =>
    intro h
    obtain ⟨hpre, htail⟩ := findSubIdx_cons_split separator a lab' h
    rw [List.cons_append, findSubIdx_cons, if_neg, ih htail]
    · rfl
    · intro hcon
      cases lab' with
      | nil =>
        rw [List.nil_append, sep_isPrefixOf_cons2] at hcon
        simp at hcon
      | cons b lab'' =>
        rw [List.cons_append, sep_isPrefixOf_cons2] at hcon
        rw [sep_isPrefixOf_cons2] at hpre
        rw [hcon] at hpre
        simp at hpre

/-- An occurrence of a pattern inside a prefix would be an occurrence in
the whole string: no occurrence in `a ++ b` means none in `a`. -/
theorem findSub_none_of_append (pat a b : Str) (h : findSubIdx pat (a ++ b) = none) :
    findSubIdx pat a = none := by
  induction a with
  | nil =>
    cases pat with
    | nil =>
      rw [List.nil_append] at h
      cases b with
      | nil => simp [findSubIdx] at h
      | cons x xs =>
        rw [findSubIdx_cons, if_pos (by simp [List.isPrefixOf])] at h
        simp at h
    | cons p ps => simp [findSubIdx]
  | cons c a' ih =>
    rw [List.cons_append] at h
    obtain ⟨hpre, htail⟩ := findSubIdx_cons_split pat c (a' ++ b) h
    rw [findSubIdx_cons, if_neg, ih htail]
    · rfl
    · intro hcon
      have hmono := isPrefixOf_mono pat (c :: a') b hcon
      rw [List.cons_append] at hmono
      rw [hmono] at hpre
      simp at hpre

/-! ### Trim and takeWhile/dropWhile lemmas -/

theorem trimTrailing_append_nonws (s : Str) (c : Char) (h : isWs c = false) :
    trimTrailing (s ++ [c]) = s ++ [c] := by
  unfold trimTrailing
  rw [List.reverse_append]
  show ((c :: s.reverse).dropWhile isWs).reverse = s ++ [c]
  rw [List.dropWhile_cons_of_neg (by simp [h])]
  simp

theorem trimTrailing_append_ws (s : Str) (c : Char) (h : isWs c = true) :
    trimTrailing (s ++ [c]) = trimTrailing s := by
  unfold trimTrailing
  rw [List.reverse_append]
  show ((c :: s.reverse).dropWhile isWs).reverse = _
  rw [List.dropWhile_cons_of_pos (by simp [h])]

theorem trimTrailing_eq_self (s : Str) (h : ∀ c, s.getLast? = some c → isWs c = false) :
    trimTrailing s = s := by
  unfold trimTrailing
  cases hrev : s.reverse with
  | nil =>
    have : s = [] := by simpa using congrArg List.reverse hrev
    simp [this]
  | cons c r =>
    have hlast : s.getLast? = some c := by
      rw [← List.head?_reverse, hrev]
      rfl
    rw [List.dropWhile_cons_of_neg (by simp [h c hlast])]
    rw [← hrev, List.reverse_reverse]

theorem trimTrailing_append (a b : Str) (h : trimTrailing b ≠ []) :
    trimTrailing (a ++ b) = a ++ trimTrailing b := by
  unfold trimTrailing at *
  rw [List.reverse_append, List.dropWhile_append]
  have hb : (b.reverse.dropWhile isWs).isEmpty = false := by
    rw [List.isEmpty_eq_false_iff_exists_mem]
    cases hd : b.reverse.dropWhile isWs with
    | nil => exact absurd (by simp [hd]) h
    | cons x xs => exact ⟨x, by simp⟩
  rw [hb]
  simp

theorem mem_trimTrailing (s : Str) (c : Char) (h : c ∈ trimTrailing s) : c ∈ s := by
  unfold trimTrailing at h
  rw [List.mem_reverse] at h
  have := (List.dropWhile_sublist isWs (l := s.reverse)).mem h
  rwa [List.mem_reverse] at this

theorem takeWhile_app_stop (p : Char → Bool) (a : Str) (c : Char) (r : Str)
    (ha : ∀ x ∈ a, p x = true) (hc : p c = false) :
    (a ++ c :: r).takeWhile p = a := by
  induction a with
  | nil => simp [List.takeWhile_cons, hc]
  | cons x a' ih =>
    rw [List.cons_append, List.takeWhile_cons_of_pos (ha x (List.mem_cons_self x a'))]
    rw [ih fun y hy => ha y (List.mem_cons_of_mem x hy)]

theorem dropWhile_app_stop (p : Char → Bool) (a : Str) (c : Char) (r : Str)
    (ha : ∀ x ∈ a, p x = true) (hc : p c = false) :
    (a ++ c :: r).dropWhile p = c :: r := by
  induction a with
  | nil => simp [List.dropWhile_cons, hc]
  | cons x a' ih =>
    rw [List.cons_append, List.dropWhile_cons_of_pos (ha x (List.mem_cons_self x a'))]
    exact ih fun y hy => ha y (List.mem_cons_of_mem x hy)

/-! ### extract_href_from_line lemmas -/

theorem extractHref_cons (c : Char) (rest : Str) :
    extract_href_from_line (c :: rest)
      = if hrefMark.isPrefixOf (c :: rest) then
          (if ((c :: rest).drop hrefMark.length).any (fun d => d = '"') then
            some (((c :: rest).drop hrefMark.length).takeWhile fun d => d ≠ '"')
          else none)
        else extract_href_from_line rest := by
  conv_lhs => rw [extract_href_from_line]

theorem extractHref_skip (a b : Str) (h : 'h' ∉ a) :
    extract_href_from_line (a ++ b) = extract_href_from_line b := by
  induction a with
  | nil => rw [List.nil_append]
  | cons c a' ih =>
    have hc : c ≠ 'h' := fun hcc => h (hcc ▸ List.mem_cons_self c a')
    have ha : 'h' ∉ a' := fun hh => h (List.mem_cons_of_mem c hh)
    rw [List.cons_append, extractHref_cons, if_neg, ih ha]
    rw [hrefMark_chars]
    simp only [List.isPrefixOf, Bool.and_eq_true, beq_iff_eq]
    intro hcon
    exact hc hcon.1.symm

theorem extractHref_none_of_findSub (s : Str) (h : findSubIdx hrefMark s = none) :
    extract_href_from_line s = none := by
  induction s with
  | nil => rfl
  | cons c rest ih =>
    obtain ⟨hpre, htail⟩ := findSubIdx_cons_split hrefMark c rest h
    rw [extractHref_cons, if_neg (by simp [hpre]), ih htail]

theorem extractHref_found (url r : Str) (h : '"' ∉ url) :
    extract_href_from_line (hrefMark ++ (url ++ '"' :: r)) = some url := by
  have hpre : hrefMark.isPrefixOf (hrefMark ++ (url ++ '"' :: r)) = true :=
    isPrefixOf_append_self _ _
  have heq : hrefMark ++ (url ++ '"' :: r)
      = 'h' :: (('r' :: 'e' :: 'f' :: '=' :: '"' :: []) ++ (url ++ '"' :: r)) := by
    rw [hrefMark_chars]
    rfl
  rw [heq, extractHref_cons, ← heq]
  rw [if_pos hpre, List.drop_left]
  rw [if_pos (by rw [List.any_eq_true]; exact ⟨'"', by simp, by simp⟩)]
  rw [takeWhile_app_stop _ url '"' r
    (fun x hx => by simp; exact fun hxq => h (hxq ▸ hx)) (by simp)]

/-! ### Markdown rendering lemmas -/

theorem parseLinkTail_length (s t u r : Str) (h : parseLinkTail s = some (t, u, r)) :
    r.length ≤ s.length := by
  unfold parseLinkTail at h
  cases hd : s.dropWhile fun c => c ≠ ']' with
  | nil => rw [hd] at h; simp at h
  | cons x rest1 =>
    rw [hd] at h
    have hlen1 : (x :: rest1).length ≤ s.length := by
      have := (List.dropWhile_sublist (fun c => decide (c ≠ ']')) (l := s)).length_le
      rw [hd] at this
      exact this
    cases rest1 with
    | nil => simp at h
    | cons y rest2 =>
      dsimp only at h
      by_cases hy : y = '('
      · rw [if_pos hy] at h
        cases hd2 : rest2.dropWhile fun c => c ≠ ')' with
        | nil => rw [hd2] at h; simp at h
        | cons z rest3 =>
          rw [hd2] at h
          have hlen2 : (z :: rest3).length ≤ rest2.length := by
            have := (List.dropWhile_sublist (fun c => decide (c ≠ ')')) (l := rest2)).length_le
            rw [hd2] at this
            exact this
          simp only [Option.some.injEq, Prod.mk.injEq] at h
          obtain ⟨-, -, hr⟩ := h
          subst hr
          simp only [List.length_cons] at hlen1 hlen2
          omega
      · rw [if_neg hy] at h
        simp at h

theorem mdToTextF_irrel (f1 : Nat) : ∀ (f2 : Nat) (s : Str), s.length ≤ f1 → s.length ≤ f2 →
    mdToTextF f1 s = mdToTextF f2 s := by
  induction f1 with
  | zero =>
    intro f2 s h1 _
    have : s = [] := List.length_eq_zero.mp (by omega)
    subst this
    cases f2 <;> rfl
  | succ f1' ih =>
    intro f2 s h1 h2
    cases s with
    | nil => cases f2 <;> rfl
    | cons c rest =>
      cases f2 with
      | zero => simp at h2
      | succ f2' =>
        show mdToTextF (f1' + 1) (c :: rest) = mdToTextF (f2' + 1) (c :: rest)
        unfold mdToTextF
        by_cases hc : c = '\\'
        · rw [if_pos hc, if_pos hc]
          cases rest with
          | nil => rfl
          | cons d rest2 =>
            dsimp only
            simp only [List.length_cons] at h1 h2
            rw [ih f2' rest2 (by omega) (by omega)]
        · rw [if_neg hc, if_neg hc]
          by_cases hb : c = '['
          · rw [if_pos hb, if_pos hb]
            cases hp : parseLinkTail rest with
            | none =>
              dsimp only
              simp only [List.length_cons] at h1 h2
              rw [ih f2' rest (by omega) (by omega)]
            | some v =>
              obtain ⟨t, u, r⟩ := v
              dsimp only
              have := parseLinkTail_length rest t u r hp
              simp only [List.length_cons] at h1 h2
              rw [ih f2' r (by omega) (by omega)]
          · rw [if_neg hb, if_neg hb]
            simp only [List.length_cons] at h1 h2
            rw [ih f2' rest (by omega) (by omega)]

theorem mdToHtmlF_irrel (f1 : Nat) : ∀ (f2 : Nat) (s : Str), s.length ≤ f1 → s.length ≤ f2 →
    mdToHtmlF f1 s = mdToHtmlF f2 s := by
  induction f1 with
  | zero =>
    intro f2 s h1 _
    have : s = [] := List.length_eq_zero.mp (by omega)
    subst this
    cases f2 <;> rfl
  | succ f1' ih =>
    intro f2 s h1 h2
    cases s with
    | nil => cases f2 <;> rfl
    | cons c rest =>
      cases f2 with
      | zero => simp at h2
      | succ f2' =>
        show mdToHtmlF (f1' + 1) (c :: rest) = mdToHtmlF (f2' + 1) (c :: rest)
        unfold mdToHtmlF
        by_cases hc : c = '\\'
        · rw [if_pos hc, if_pos hc]
          cases rest with
          | nil => rfl
          | cons d rest2 =>
            dsimp only
            simp only [List.length_cons] at h1 h2
            rw [ih f2' rest2 (by omega) (by omega)]
        · rw [if_neg hc, if_neg hc]
          by_cases hb : c = '['
          · rw [if_pos hb, if_pos hb]
            cases hp : parseLinkTail rest with
            | none =>
              dsimp only
              simp only [List.length_cons] at h1 h2
              rw [ih f2' rest (by omega) (by omega)]
            | some v =>
              obtain ⟨t, u, r⟩ := v
              dsimp only
              have := parseLinkTail_length rest t u r hp
              simp only [List.length_cons] at h1 h2
              rw [ih f2' r (by omega) (by omega)]
          · rw [if_neg hb, if_neg hb]
            simp only [List.length_cons] at h1 h2
            rw [ih f2' rest (by omega) (by omega)]

theorem mdToText_nil : mdToText [] = [] := rfl

theorem mdToText_cons_plain (c : Char) (rest : Str) (h1 : c ≠ '\\') (h2 : c ≠ '[') :
    mdToText (c :: rest) = c :: mdToText rest := by
  show mdToTextF (rest.length + 1) (c :: rest) = c :: mdToTextF rest.length rest
  conv_lhs => rw [mdToTextF.eq_def]
  dsimp only
  rw [if_neg h1, if_neg h2]

theorem mdToText_cons_esc (c : Char) (rest : Str) :
    mdToText ('\\' :: c :: rest) = c :: mdToText rest := by
  show mdToTextF ((c :: rest).length + 1) ('\\' :: c :: rest) = c :: mdToTextF rest.length rest
  conv_lhs => rw [mdToTextF.eq_def]
  dsimp only
  rw [if_pos rfl]
  rw [mdToTextF_irrel (c :: rest).length rest.length rest (by simp) (by omega)]

theorem mdToText_link (rest t u r : Str) (h : parseLinkTail rest = some (t, u, r)) :
    mdToText ('[' :: rest) = t ++ mdToText r := by
  show mdToTextF (rest.length + 1) ('[' :: rest) = t ++ mdToTextF r.length r
  conv_lhs => rw [mdToTextF.eq_def]
  dsimp only
  rw [if_neg (by decide), if_pos rfl, h]
  dsimp only
  rw [mdToTextF_irrel rest.length r.length r (parseLinkTail_length rest t u r h) (le_refl _)]

theorem mdToHtml_nil : mdToHtml [] = [] := rfl

theorem mdToHtml_cons_plain (c : Char) (rest : Str) (h1 : c ≠ '\\') (h2 : c ≠ '[') :
    mdToHtml (c :: rest) = c :: mdToHtml rest := by
  show mdToHtmlF (rest.length + 1) (c :: rest) = c :: mdToHtmlF rest.length rest
  conv_lhs => rw [mdToHtmlF.eq_def]
  dsimp only
  rw [if_neg h1, if_neg h2]

theorem mdToHtml_cons_esc (c : Char) (rest : Str) :
    mdToHtml ('\\' :: c :: rest) = c :: mdToHtml rest := by
  show mdToHtmlF ((c :: rest).length + 1) ('\\' :: c :: rest) = c :: mdToHtmlF rest.length rest
  conv_lhs => rw [mdToHtmlF.eq_def]
  dsimp only
  rw [if_pos rfl]
  rw [mdToHtmlF_irrel (c :: rest).length rest.length rest (by simp) (by omega)]

theorem mdToHtml_link (rest t u r : Str) (h : parseLinkTail rest = some (t, u, r)) :
    mdToHtml ('[' :: rest) = htmlAOpen ++ u ++ htmlAMid ++ t ++ htmlAClose ++ mdToHtml r := by
  show mdToHtmlF (rest.length + 1) ('[' :: rest)
      = htmlAOpen ++ u ++ htmlAMid ++ t ++ htmlAClose ++ mdToHtmlF r.length r
  conv_lhs => rw [mdToHtmlF.eq_def]
  dsimp only
  rw [if_neg (by decide), if_pos rfl, h]
  dsimp only
  rw [mdToHtmlF_irrel rest.length r.length r (parseLinkTail_length rest t u r h) (le_refl _)]

theorem mdToText_inert (s : Str) : ∀ t : Str, '\\' ∉ s → '[' ∉ s →
    mdToText (s ++ t) = s ++ mdToText t := by
  induction s with
  | nil => intro t _ _; rfl
  | cons c s' ih =>
    intro t h1 h2
    rw [List.cons_append,
      mdToText_cons_plain c _ (fun hc => h1 (hc ▸ List.mem_cons_self c s'))
        (fun hc => h2 (hc ▸ List.mem_cons_self c s'))]
    rw [ih t (fun hc => h1 (List.mem_cons_of_mem c hc)) (fun hc => h2 (List.mem_cons_of_mem c hc))]
    rfl

theorem mdToText_inert_self (s : Str) (h1 : '\\' ∉ s) (h2 : '[' ∉ s) : mdToText s = s := by
  have := mdToText_inert s [] h1 h2
  simpa [mdToText_nil] using this

theorem mdToHtml_inert (s : Str) : ∀ t : Str, '\\' ∉ s → '[' ∉ s →
    mdToHtml (s ++ t) = s ++ mdToHtml t := by
  induction s with
  | nil => intro t _ _; rfl
  | cons c s' ih =>
    intro t h1 h2
    rw [List.cons_append,
      mdToHtml_cons_plain c _ (fun hc => h1 (hc ▸ List.mem_cons_self c s'))
        (fun hc => h2 (hc ▸ List.mem_cons_self c s'))]
    rw [ih t (fun hc => h1 (List.mem_cons_of_mem c hc)) (fun hc => h2 (List.mem_cons_of_mem c hc))]
    rfl

theorem lbracket_mem_specials : '[' ∈ mdSpecials := by decide

theorem backslash_not_mem_specials : '\\' ∉ mdSpecials := by decide

theorem mdToText_escape (s : Str) : ∀ t : Str, '\\' ∉ s →
    mdToText (escape_md s ++ t) = s ++ mdToText t := by
  induction s with
  | nil => intro t _; rfl
  | cons c s' ih =>
    intro t h
    have hc : c ≠ '\\' := fun hcc => h (hcc ▸ List.mem_cons_self c s')
    have hs : '\\' ∉ s' := fun hh => h (List.mem_cons_of_mem c hh)
    show mdToText (((if c ∈ mdSpecials then ['\\', c] else [c]) ++ escape_md s') ++ t)
        = c :: s' ++ mdToText t
    by_cases hmem : c ∈ mdSpecials
    · rw [if_pos hmem]
      show mdToText ('\\' :: c :: (escape_md s' ++ t)) = c :: s' ++ mdToText t
      rw [mdToText_cons_esc, ih t hs]
      rfl
    · rw [if_neg hmem]
      show mdToText (c :: (escape_md s' ++ t)) = c :: s' ++ mdToText t
      rw [mdToText_cons_plain c _ hc (fun hcc => hmem (hcc ▸ lbracket_mem_specials)), ih t hs]
      rfl

theorem mdToHtml_escape (s : Str) : ∀ t : Str, '\\' ∉ s →
    mdToHtml (escape_md s ++ t) = s ++ mdToHtml t := by
  induction s with
  | nil => intro t _; rfl
  | cons c s' ih =>
    intro t h
    have hc : c ≠ '\\' := fun hcc => h (hcc ▸ List.mem_cons_self c s')
    have hs : '\\' ∉ s' := fun hh => h (List.mem_cons_of_mem c hh)
    show mdToHtml (((if c ∈ mdSpecials then ['\\', c] else [c]) ++ escape_md s') ++ t)
        = c :: s' ++ mdToHtml t
    by_cases hmem : c ∈ mdSpecials
    · rw [if_pos hmem]
      show mdToHtml ('\\' :: c :: (escape_md s' ++ t)) = c :: s' ++ mdToHtml t
      rw [mdToHtml_cons_esc, ih t hs]
      rfl
    · rw [if_neg hmem]
      show mdToHtml (c :: (escape_md s' ++ t)) = c :: s' ++ mdToHtml t
      rw [mdToHtml_cons_plain c _ hc (fun hcc => hmem (hcc ▸ lbracket_mem_specials)), ih t hs]
      rfl

/-- The meta-container link parses as a link: text is the bare meta char,
target is the packed metadata, remainder is the rest of the line. -/
theorem parseLinkTail_meta (url rest : Str) (hu : ')' ∉ url) :
    parseLinkTail (metaChar :: ']' :: '(' :: (url ++ ')' :: rest))
      = some ([metaChar], url, rest) := by
  unfold parseLinkTail
  rw [List.dropWhile_cons_of_pos (by decide)]
  rw [List.dropWhile_cons_of_neg (by simp)]
  dsimp only
  rw [if_pos rfl]
  rw [dropWhile_app_stop _ url ')' rest
    (fun x hx => by simp; exact fun hxq => hu (hxq ▸ hx)) (by simp)]
  rw [List.takeWhile_cons_of_pos (by decide)]
  rw [List.takeWhile_cons_of_neg (by simp)]
  rw [takeWhile_app_stop _ url ')' rest
    (fun x hx => by simp; exact fun hxq => hu (hxq ▸ hx)) (by simp)]

/-! ### Metadata channel lemmas -/

theorem pack_single (k v : Str) :
    pack_meta_as_link [(k, v)] = metaLinkHead ++ (k ++ metaKvSep :: v) := by
  unfold pack_meta_as_link
  rw [List.map_cons, List.map_nil, joinC_singleton]

theorem parse_pack_single (k v : Str) (hk1 : metaConcat ∉ k) (hk2 : metaKvSep ∉ k)
    (hv1 : metaConcat ∉ v) (hv2 : metaKvSep ∉ v) :
    parse_meta_from_link (pack_meta_as_link [(k, v)]) = Except.ok (some [(k, v)]) := by
  rw [pack_single]
  unfold parse_meta_from_link
  rw [List.drop_left]
  rw [if_neg (by simp)]
  have hsplit1 : splitC metaConcat (k ++ metaKvSep :: v) = [k ++ metaKvSep :: v] := by
    apply splitC_not_mem
    intro hmem
    rcases List.mem_append.mp hmem with hmem | hmem
    · exact hk1 hmem
    · rcases List.mem_cons.mp hmem with hmem | hmem
      · exact absurd hmem.symm (by decide)
      · exact hv1 hmem
  rw [hsplit1, List.map_cons, List.map_nil]
  rw [splitC_append_sep metaKvSep k v hk2, splitC_not_mem metaKvSep v hv2]
  rw [if_pos (by simp)]
  simp

theorem metaLookup_single (k v : Str) : metaLookup [(k, v)] k = some v := by
  unfold metaLookup
  simp [List.find?]

/-! ### Icon, representation and plain-value lemmas -/

theorem icon_cases (f : FgField) :
    get_field_icon f = missingIcon ∨ get_field_icon f = readOnlyIcon ∨
    get_field_icon f = editIcon := by
  unfold get_field_icon
  by_cases h1 : f.read_only = true
  · rw [if_pos h1]; exact Or.inr (Or.inl rfl)
  · rw [if_neg h1]
    by_cases h2 : needs_value f = true
    · rw [if_pos h2]; exact Or.inl rfl
    · rw [if_neg h2]; exact Or.inr (Or.inr rfl)

theorem icon_clean (f : FgField) :
    '\\' ∉ get_field_icon f ∧ '[' ∉ get_field_icon f ∧ 'h' ∉ get_field_icon f ∧
    metaChar ∉ get_field_icon f ∧ '\n' ∉ get_field_icon f ∧ get_field_icon f ≠ [] := by
  rcases icon_cases f with h | h | h <;> rw [h] <;> refine ⟨?_, ?_, ?_, ?_, ?_, ?_⟩ <;> decide

/-- For a StrField the rendered value is the escaped plain value; for every
other field class it is the plain value itself. -/
theorem to_repr_eq_escape (f : FgField) (h : f.kind = FieldKind.strF) :
    to_repr f missing_value_str = escape_md (plainValue f) := by
  unfold to_repr plainValue
  cases hv : f.value with
  | none => rfl
  | some v => rw [h]

theorem to_repr_eq_plain (f : FgField) (h : f.kind ≠ FieldKind.strF) :
    to_repr f missing_value_str = plainValue f := by
  unfold to_repr plainValue
  cases hv : f.value with
  | none => rfl
  | some v =>
    cases hk : f.kind with
    | strF => exact absurd hk h
    | boolF rt rf => rfl
    | intF => rfl
    | choiceF cs => rfl
    | dynChoiceF cs => rfl

/-! ### Rendering one field line -/

theorem fieldLineMd_assoc (f : FgField) :
    fieldLineMd f = get_field_icon f ++ (metaContainerMd (get_meta f)
      ++ (escape_md f.label ++ (separator ++ to_repr f missing_value_str))) := by
  unfold fieldLineMd
  simp [List.append_assoc]

theorem mdToText_fieldLine (f : FgField)
    (hlab : '\\' ∉ f.label)
    (hpv1 : '\\' ∉ plainValue f) (hpv2 : '[' ∉ plainValue f)
    (hurl : ')' ∉ pack_meta_as_link (get_meta f)) :
    mdToText (fieldLineMd f) = plainLineOf f := by
  have hicon := icon_clean f
  have hrest : mdToText (escape_md f.label ++ (separator ++ to_repr f missing_value_str))
      = f.label ++ (separator ++ plainValue f) := by
    rw [mdToText_escape f.label _ hlab]
    rw [mdToText_inert separator _ (by decide) (by decide)]
    congr 2
    by_cases hk : f.kind = FieldKind.strF
    · rw [to_repr_eq_escape f hk]
      have := mdToText_escape (plainValue f) [] hpv1
      simpa [mdToText_nil] using this
    · rw [to_repr_eq_plain f hk]
      exact mdToText_inert_self _ hpv1 hpv2
  rw [fieldLineMd_assoc]
  rw [mdToText_inert _ _ hicon.1 hicon.2.1]
  unfold plainLineOf
  congr 1
  cases hmeta : get_meta f with
  | nil =>
    have hcont : metaContainerMd [] = [metaChar] := rfl
    rw [hcont]
    rw [show ([metaChar] : Str) ++ (escape_md f.label ++ (separator
        ++ to_repr f missing_value_str))
      = metaChar :: (escape_md f.label ++ (separator ++ to_repr f missing_value_str)) from rfl]
    rw [mdToText_cons_plain metaChar _ (by decide) (by decide)]
    rw [hrest]
    simp [List.append_assoc]
  | cons kv mrest =>
    have hcont : metaContainerMd (kv :: mrest)
        = '[' :: metaChar :: ']' :: '(' :: (pack_meta_as_link (kv :: mrest) ++ [')']) := by
      unfold metaContainerMd
      rw [if_pos (by simp)]
    rw [hcont]
    rw [show ('[' :: metaChar :: ']' :: '(' :: (pack_meta_as_link (kv :: mrest) ++ [')']))
          ++ (escape_md f.label ++ (separator ++ to_repr f missing_value_str))
        = '[' :: (metaChar :: ']' :: '(' :: (pack_meta_as_link (kv :: mrest)
          ++ ')' :: (escape_md f.label ++ (separator ++ to_repr f missing_value_str)))) by
      simp [List.append_assoc]]
    rw [mdToText_link _ [metaChar] (pack_meta_as_link (kv :: mrest)) _
      (parseLinkTail_meta _ _ (hmeta ▸ hurl))]
    rw [hrest]
    simp [List.append_assoc]

theorem mdToHtml_fieldLine (f : FgField)
    (hlab : '\\' ∉ f.label)
    (hpv1 : '\\' ∉ plainValue f) (hpv2 : '[' ∉ plainValue f)
    (hurl : ')' ∉ pack_meta_as_link (get_meta f)) :
    mdToHtml (fieldLineMd f) = htmlLineOf f := by
  have hicon := icon_clean f
  have hrest : mdToHtml (escape_md f.label ++ (separator ++ to_repr f missing_value_str))
      = f.label ++ (separator ++ plainValue f) := by
    rw [mdToHtml_escape f.label _ hlab]
    rw [mdToHtml_inert separator _ (by decide) (by decide)]
    congr 2
    by_cases hk : f.kind = FieldKind.strF
    · rw [to_repr_eq_escape f hk]
      have := mdToHtml_escape (plainValue f) [] hpv1
      simpa [mdToHtml_nil] using this
    · rw [to_repr_eq_plain f hk]
      have := mdToHtml_inert (plainValue f) [] hpv1 hpv2
      simpa [mdToHtml_nil] using this
  rw [fieldLineMd_assoc]
  rw [mdToHtml_inert _ _ hicon.1 hicon.2.1]
  unfold htmlLineOf
  rw [show get_field_icon f ++ htmlMetaPart f ++ (f.label ++ separator ++ plainValue f)
      = get_field_icon f ++ (htmlMetaPart f ++ (f.label ++ (separator ++ plainValue f))) by
    simp [List.append_assoc]]
  congr 1
  cases hmeta : get_meta f with
  | nil =>
    have hcont : metaContainerMd [] = [metaChar] := rfl
    rw [hcont]
    rw [show ([metaChar] : Str) ++ (escape_md f.label ++ (separator
        ++ to_repr f missing_value_str))
      = metaChar :: (escape_md f.label ++ (separator ++ to_repr f missing_value_str)) from rfl]
    rw [mdToHtml_cons_plain metaChar _ (by decide) (by decide)]
    rw [hrest]
    unfold htmlMetaPart
    rw [if_pos hmeta]
    rfl
  | cons kv mrest =>
    have hcont : metaContainerMd (kv :: mrest)
        = '[' :: metaChar :: ']' :: '(' :: (pack_meta_as_link (kv :: mrest) ++ [')']) := by
      unfold metaContainerMd
      rw [if_pos (by simp)]
    rw [hcont]
    rw [show ('[' :: metaChar :: ']' :: '(' :: (pack_meta_as_link (kv :: mrest) ++ [')']))
          ++ (escape_md f.label ++ (separator ++ to_repr f missing_value_str))
        = '[' :: (metaChar :: ']' :: '(' :: (pack_meta_as_link (kv :: mrest)
          ++ ')' :: (escape_md f.label ++ (separator ++ to_repr f missing_value_str)))) by
      simp [List.append_assoc]]
    rw [mdToHtml_link _ [metaChar] (pack_meta_as_link (kv :: mrest)) _
      (parseLinkTail_meta _ _ (hmeta ▸ hurl))]
    rw [hrest]
    unfold htmlMetaPart
    rw [if_neg (by rw [hmeta]; simp), hmeta]
    simp [List.append_assoc]

/-! ### Instance/hygiene unpacking and the from_repr round trip -/

theorem instanceOfB_unpack (tmpl f : FgField) (h : instanceOfB tmpl f = true) :
    f.name = tmpl.name ∧ f.label = tmpl.label ∧ f.required = tmpl.required ∧
    f.read_only = tmpl.read_only ∧ f.noneable = tmpl.noneable ∧
    kindMatchB tmpl.kind f.kind = true := by
  unfold instanceOfB at h
  simp only [Bool.and_eq_true, beq_iff_eq] at h
  tauto

theorem kindMatchB_str (k : FieldKind) (h : kindMatchB FieldKind.strF k = true) :
    k = FieldKind.strF := by
  cases k <;> simp_all [kindMatchB]

theorem kindMatchB_int (k : FieldKind) (h : kindMatchB FieldKind.intF k = true) :
    k = FieldKind.intF := by
  cases k <;> simp_all [kindMatchB]

theorem kindMatchB_bool (rt rf : Str) (k : FieldKind)
    (h : kindMatchB (FieldKind.boolF rt rf) k = true) : k = FieldKind.boolF rt rf := by
  cases k <;> simp_all [kindMatchB]

theorem kindMatchB_choice (cs : List Str) (k : FieldKind)
    (h : kindMatchB (FieldKind.choiceF cs) k = true) : k = FieldKind.choiceF cs := by
  cases k <;> simp_all [kindMatchB]

theorem kindMatchB_dyn (cs : List Str) (k : FieldKind)
    (h : kindMatchB (FieldKind.dynChoiceF cs) k = true) :
    ∃ cs', k = FieldKind.dynChoiceF cs' := by
  cases k <;> simp_all [kindMatchB]

theorem wellFormedB_none (f : FgField) (h : wellFormedB f = true) (hv : f.value = none) :
    f.noneable = true := by
  unfold wellFormedB at h
  rw [hv] at h
  exact h

theorem wellFormedB_some (f : FgField) (v : FieldVal) (h : wellFormedB f = true)
    (hv : f.value = some v) : valType v = kindType f.kind := by
  unfold wellFormedB at h
  rw [hv] at h
  simpa [beq_iff_eq] using h

theorem plainValue_none (f : FgField) (hv : f.value = none) : plainValue f = [] := by
  unfold plainValue
  rw [hv]

theorem plainValue_some_nonbool (f : FgField) (v : FieldVal) (hv : f.value = some v)
    (hk : ∀ rt rf, f.kind ≠ FieldKind.boolF rt rf) : plainValue f = pyStr v := by
  unfold plainValue
  rw [hv]
  cases hkk : f.kind with
  | boolF rt rf => exact absurd hkk (hk rt rf)
  | strF => rfl
  | intF => rfl
  | choiceF cs => rfl
  | dynChoiceF cs => rfl

theorem plainValue_some_bool (f : FgField) (rt rf : Str) (b : Bool)
    (hv : f.value = some (FieldVal.vbool b)) (hk : f.kind = FieldKind.boolF rt rf) :
    plainValue f = if b then rt else rf := by
  unfold plainValue
  rw [hv, hk]

theorem assignE_ok_none (g : FgField) (hn : g.noneable = true) :
    assignE g none = Except.ok { g with value := none } := by
  unfold assignE FgField.assign assignCheck
  rw [hn]
  rfl

theorem assignE_ok_some (g : FgField) (x : FieldVal) (ht : valType x = kindType g.kind) :
    assignE g (some x) = Except.ok { g with value := some x } := by
  unfold assignE FgField.assign assignCheck
  dsimp only
  rw [if_pos ht]

theorem field_eq_of_parts (tmpl f : FgField) (hio : instanceOfB tmpl f = true)
    (k : FieldKind) (hk : f.kind = k) (v : Option FieldVal) (hv : f.value = v) :
    FgField.mk k tmpl.name tmpl.label tmpl.required tmpl.read_only tmpl.noneable v = f := by
  obtain ⟨h1, h2, h3, h4, h5, -⟩ := instanceOfB_unpack tmpl f hio
  cases f
  simp_all

/-- Decoding one field: `from_repr` on the schema template, fed the decoded
plain value (with the missing-token collapse to an absent value) and the
metadata the decoder recovers for this field, rebuilds the live field. -/
theorem from_repr_round (tmpl f : FgField)
    (hio : instanceOfB tmpl f = true)
    (hwf : wellFormedB f = true)
    (hpres : ∀ v, f.value = some v → plainValue f ≠ [])
    (hrtrf : ∀ rt rf, f.kind = FieldKind.boolF rt rf → rt ≠ rf)
    (hdynne : ∀ cs, f.kind = FieldKind.dynChoiceF cs → cs ≠ [])
    (hdynsep : ∀ cs, f.kind = FieldKind.dynChoiceF cs → ∀ x ∈ cs, dynSep ∉ x) :
    from_repr tmpl (if plainValue f = [] then none else some (plainValue f)) (metaDecoded f)
      = Except.ok f := by
  obtain ⟨h1, h2, h3, h4, h5, hkm⟩ := instanceOfB_unpack tmpl f hio
  cases hkt : tmpl.kind with
  | strF =>
    have hkf : f.kind = FieldKind.strF := kindMatchB_str f.kind (hkt ▸ hkm)
    unfold from_repr
    rw [hkt]
    cases hv : f.value with
    | none =>
      rw [if_pos (plainValue_none f hv)]
      rw [show Option.map FieldVal.vstr none = none from rfl]
      rw [assignE_ok_none tmpl (by rw [← h5]; exact wellFormedB_none f hwf hv)]
      rw [show ({ tmpl with value := none } : FgField)
          = FgField.mk tmpl.kind tmpl.name tmpl.label tmpl.required tmpl.read_only
              tmpl.noneable none from rfl]
      rw [show tmpl.kind = FieldKind.strF from hkt]
      rw [field_eq_of_parts tmpl f hio FieldKind.strF hkf none hv]
    | some v =>
      have ht := wellFormedB_some f v hwf hv
      rw [hkf] at ht
      cases v with
      | vint n => simp [valType, kindType] at ht
      | vbool b => simp [valType, kindType] at ht
      | vstr sv =>
        have hpv : plainValue f = sv :=
          plainValue_some_nonbool f (FieldVal.vstr sv) hv (by rw [hkf]; intro rt rf; simp)
        rw [if_neg (by rw [hpv]; exact fun hc => hpres _ hv (hpv ▸ hc))]
        rw [hpv]
        rw [show Option.map FieldVal.vstr (some sv) = some (FieldVal.vstr sv) from rfl]
        rw [assignE_ok_some tmpl (FieldVal.vstr sv) (by rw [hkt]; rfl)]
        rw [show ({ tmpl with value := some (FieldVal.vstr sv) } : FgField)
            = FgField.mk tmpl.kind tmpl.name tmpl.label tmpl.required tmpl.read_only
                tmpl.noneable (some (FieldVal.vstr sv)) from rfl]
        rw [show tmpl.kind = FieldKind.strF from hkt]
        rw [field_eq_of_parts tmpl f hio FieldKind.strF hkf (some (FieldVal.vstr sv)) hv]
  | intF =>
    have hkf : f.kind = FieldKind.intF := kindMatchB_int f.kind (hkt ▸ hkm)
    unfold from_repr
    rw [hkt]
    cases hv : f.value with
    | none =>
      rw [if_pos (plainValue_none f hv)]
      dsimp only
      rw [assignE_ok_none tmpl (by rw [← h5]; exact wellFormedB_none f hwf hv)]
      rw [show ({ tmpl with value := none } : FgField)
          = FgField.mk tmpl.kind tmpl.name tmpl.label tmpl.required tmpl.read_only
              tmpl.noneable none from rfl]
      rw [show tmpl.kind = FieldKind.intF from hkt]
      rw [field_eq_of_parts tmpl f hio FieldKind.intF hkf none hv]
    | some v =>
      have ht := wellFormedB_some f v hwf hv
      rw [hkf] at ht
      cases v with
      | vstr sv => simp [valType, kindType] at ht
      | vbool b => simp [valType, kindType] at ht
      | vint n =>
        have hpv : plainValue f = intRepr n :=
          plainValue_some_nonbool f (FieldVal.vint n) hv (by rw [hkf]; intro rt rf; simp)
        rw [if_neg (by rw [hpv]; exact fun hc => hpres _ hv (hpv ▸ hc))]
        rw [hpv]
        dsimp only
        rw [parseInt_intRepr n]
        dsimp only
        rw [assignE_ok_some tmpl (FieldVal.vint n) (by rw [hkt]; rfl)]
        rw [show ({ tmpl with value := some (FieldVal.vint n) } : FgField)
            = FgField.mk tmpl.kind tmpl.name tmpl.label tmpl.required tmpl.read_only
                tmpl.noneable (some (FieldVal.vint n)) from rfl]
        rw [show tmpl.kind = FieldKind.intF from hkt]
        rw [field_eq_of_parts tmpl f hio FieldKind.intF hkf (some (FieldVal.vint n)) hv]
  | boolF rt rf =>
    have hkf : f.kind = FieldKind.boolF rt rf := kindMatchB_bool rt rf f.kind (hkt ▸ hkm)
    unfold from_repr
    rw [hkt]
    cases hv : f.value with
    | none =>
      rw [if_pos (plainValue_none f hv)]
      dsimp only
      rw [assignE_ok_none tmpl (by rw [← h5]; exact wellFormedB_none f hwf hv)]
      rw [show ({ tmpl with value := none } : FgField)
          = FgField.mk tmpl.kind tmpl.name tmpl.label tmpl.required tmpl.read_only
              tmpl.noneable none from rfl]
      rw [show tmpl.kind = FieldKind.boolF rt rf from hkt]
      rw [field_eq_of_parts tmpl f hio (FieldKind.boolF rt rf) hkf none hv]
    | some v =>
      have ht := wellFormedB_some f v hwf hv
      rw [hkf] at ht
      cases v with
      | vstr sv => simp [valType, kindType] at ht
      | vint n => simp [valType, kindType] at ht
      | vbool b =>
        have hpv : plainValue f = if b then rt else rf :=
          plainValue_some_bool f rt rf b hv hkf
        rw [if_neg (by exact fun hc => hpres _ hv hc)]
        dsimp only
        have hne : rt ≠ rf := hrtrf rt rf hkf
        have hr2v : repr2val rt rf (plainValue f) = some b := by
          rw [hpv]
          cases b with
          | true =>
            unfold repr2val
            rw [if_neg (by simpa using hne), if_pos (by simp)]
          | false =>
            unfold repr2val
            rw [if_pos (by simp)]
        rw [hr2v]
        dsimp only
        rw [assignE_ok_some tmpl (FieldVal.vbool b) (by rw [hkt]; rfl)]
        rw [show ({ tmpl with value := some (FieldVal.vbool b) } : FgField)
            = FgField.mk tmpl.kind tmpl.name tmpl.label tmpl.required tmpl.read_only
                tmpl.noneable (some (FieldVal.vbool b)) from rfl]
        rw [show tmpl.kind = FieldKind.boolF rt rf from hkt]
        rw [field_eq_of_parts tmpl f hio (FieldKind.boolF rt rf) hkf
          (some (FieldVal.vbool b)) hv]
  | choiceF cs =>
    have hkf : f.kind = FieldKind.choiceF cs := kindMatchB_choice cs f.kind (hkt ▸ hkm)
    unfold from_repr
    rw [hkt]
    cases hv : f.value with
    | none =>
      rw [if_pos (plainValue_none f hv)]
      rw [show Option.map FieldVal.vstr none = none from rfl]
      rw [assignE_ok_none tmpl (by rw [← h5]; exact wellFormedB_none f hwf hv)]
      rw [show ({ tmpl with value := none } : FgField)
          = FgField.mk tmpl.kind tmpl.name tmpl.label tmpl.required tmpl.read_only
              tmpl.noneable none from rfl]
      rw [show tmpl.kind = FieldKind.choiceF cs from hkt]
      rw [field_eq_of_parts tmpl f hio (FieldKind.choiceF cs) hkf none hv]
    | some v =>
      have ht := wellFormedB_some f v hwf hv
      rw [hkf] at ht
      cases v with
      | vint n => simp [valType, kindType] at ht
      | vbool b => simp [valType, kindType] at ht
      | vstr sv =>
        have hpv : plainValue f = sv :=
          plainValue_some_nonbool f (FieldVal.vstr sv) hv (by rw [hkf]; intro rt rf; simp)
        rw [if_neg (by rw [hpv]; exact fun hc => hpres _ hv (hpv ▸ hc))]
        rw [hpv]
        rw [show Option.map FieldVal.vstr (some sv) = some (FieldVal.vstr sv) from rfl]
        rw [assignE_ok_some tmpl (FieldVal.vstr sv) (by rw [hkt]; rfl)]
        rw [show ({ tmpl with value := some (FieldVal.vstr sv) } : FgField)
            = FgField.mk tmpl.kind tmpl.name tmpl.label tmpl.required tmpl.read_only
                tmpl.noneable (some (FieldVal.vstr sv)) from rfl]
        rw [show tmpl.kind = FieldKind.choiceF cs from hkt]
        rw [field_eq_of_parts tmpl f hio (FieldKind.choiceF cs) hkf (some (FieldVal.vstr sv)) hv]
  | dynChoiceF cs0 =>
    obtain ⟨cs, hkf⟩ := kindMatchB_dyn cs0 f.kind (hkt ▸ hkm)
    have hmeta : metaDecoded f = some [(chsKey, joinC dynSep cs)] := by
      unfold metaDecoded get_meta
      rw [hkf]
    have hsplit : splitC dynSep (joinC dynSep cs) = cs :=
      splitC_joinC dynSep cs (hdynne cs hkf) (hdynsep cs hkf)
    unfold from_repr
    rw [hkt, hmeta]
    cases hv : f.value with
    | none =>
      rw [if_pos (plainValue_none f hv)]
      rw [show Option.map FieldVal.vstr none = none from rfl]
      rw [assignE_ok_none tmpl (by rw [← h5]; exact wellFormedB_none f hwf hv)]
      dsimp only
      rw [metaLookup_single]
      dsimp only
      rw [hsplit]
      rw [field_eq_of_parts tmpl f hio (FieldKind.dynChoiceF cs) hkf none hv]
    | some v =>
      have ht := wellFormedB_some f v hwf hv
      rw [hkf] at ht
      cases v with
      | vint n => simp [valType, kindType] at ht
      | vbool b => simp [valType, kindType] at ht
      | vstr sv =>
        have hpv : plainValue f = sv :=
          plainValue_some_nonbool f (FieldVal.vstr sv) hv (by rw [hkf]; intro rt rf; simp)
        rw [if_neg (by rw [hpv]; exact fun hc => hpres _ hv (hpv ▸ hc))]
        rw [hpv]
        rw [show Option.map FieldVal.vstr (some sv) = some (FieldVal.vstr sv) from rfl]
        rw [assignE_ok_some tmpl (FieldVal.vstr sv) (by rw [hkt]; rfl)]
        dsimp only
        rw [metaLookup_single]
        dsimp only
        rw [hsplit]
        rw [field_eq_of_parts tmpl f hio (FieldKind.dynChoiceF cs) hkf
          (some (FieldVal.vstr sv)) hv]

/-! ### Label and name resolution under unique labels/names -/

theorem find?_append_none {α : Type} (p : α → Bool) (l₁ l₂ : List α)
    (h : l₁.find? p = none) : (l₁ ++ l₂).find? p = l₂.find? p := by
  induction l₁ with
  | nil => rfl
  | cons a t ih =>
    rw [List.cons_append]
    rw [List.find?_cons] at h
    rw [List.find?_cons]
    cases hp : p a with
    | true => rw [hp] at h; simp at h
    | false =>
      rw [hp] at h
      simp only at h ⊢
      exact ih h

theorem label_lookup (pre post : List FgField) (tmpl : FgField)
    (hnodup : ((pre ++ tmpl :: post).map FgField.label).Nodup) :
    label_to_field (pre ++ tmpl :: post) tmpl.label = some tmpl.name := by
  have hnotin : tmpl.label ∉ post.map FgField.label := by
    rw [List.map_append, List.map_cons] at hnodup
    have h2 := (List.nodup_append.mp hnodup).2.1
    exact (List.nodup_cons.mp h2).1
  unfold label_to_field
  rw [List.reverse_append, List.reverse_cons]
  have hpost : (post.reverse.find? fun f => f.label = tmpl.label) = none := by
    rw [List.find?_eq_none]
    intro x hx
    rw [List.mem_reverse] at hx
    simp only [decide_eq_true_eq]
    intro hcon
    exact hnotin (hcon ▸ List.mem_map_of_mem FgField.label hx)
  rw [show post.reverse ++ [tmpl] ++ pre.reverse = post.reverse ++ (tmpl :: pre.reverse) by
    simp]
  rw [find?_append_none _ _ _ hpost]
  rw [List.find?_cons_of_pos _ (by simp)]
  rfl

theorem name_find (pre post : List FgField) (tmpl : FgField)
    (hnodup : ((pre ++ tmpl :: post).map FgField.name).Nodup) :
    ((pre ++ tmpl :: post).find? fun f => f.name = tmpl.name) = some tmpl := by
  have hnotin : tmpl.name ∉ pre.map FgField.name := by
    rw [List.map_append, List.map_cons] at hnodup
    intro hcon
    exact (List.nodup_append.mp hnodup).2.2 hcon (List.mem_cons_self _ _)
  have hpre : (pre.find? fun f => f.name = tmpl.name) = none := by
    rw [List.find?_eq_none]
    intro x hx
    simp only [decide_eq_true_eq]
    intro hcon
    exact hnotin (hcon ▸ List.mem_map_of_mem FgField.name hx)
  rw [find?_append_none _ _ _ hpre]
  rw [List.find?_cons_of_pos _ (by simp)]

/-! ### Trimming rendered lines -/

theorem getLast?_append_right (a b : Str) (h : b ≠ []) :
    (a ++ b).getLast? = b.getLast? := by
  induction a with
  | nil => rfl
  | cons c a' ih =>
    rw [List.cons_append, List.getLast?_cons]
    rw [ih]
    cases hb : b with
    | nil => exact absurd hb h
    | cons d b' =>
      cases a' with
      | nil => simp [List.getLast?_cons]
      | cons e a'' => simp [List.getLast?_cons]

theorem getLast?_cons_of_ne_nil (c : Char) (z : Str) (h : z ≠ []) :
    (c :: z).getLast? = z.getLast? := by
  have : c :: z = [c] ++ z := rfl
  rw [this, getLast?_append_right [c] z h]

theorem plainLineOf_shape (f : FgField) :
    plainLineOf f = get_field_icon f
      ++ metaChar :: ((f.label ++ separator) ++ plainValue f) := by
  unfold plainLineOf
  simp [List.append_assoc]

theorem trim_plainLine_present (f : FgField) (hne : plainValue f ≠ [])
    (hws : ∀ c, (plainValue f).getLast? = some c → isWs c = false) :
    trimTrailing (plainLineOf f) = plainLineOf f := by
  apply trimTrailing_eq_self
  intro c hc
  rw [plainLineOf_shape] at hc
  rw [getLast?_append_right _ _ (by simp)] at hc
  rw [getLast?_cons_of_ne_nil _ _ (by simp [separator_chars])] at hc
  rw [getLast?_append_right _ _ hne] at hc
  exact hws c hc

theorem trim_plainLine_absent (f : FgField) (hv : plainValue f = []) :
    trimTrailing (plainLineOf f)
      = get_field_icon f ++ metaChar :: (f.label ++ [':']) := by
  have e1 : plainLineOf f
      = ((get_field_icon f ++ metaChar :: (f.label ++ [':'])) ++ [' ']) := by
    rw [plainLineOf_shape, hv, separator_chars]
    simp
  rw [e1, trimTrailing_append_ws _ _ (by decide)]
  apply trimTrailing_eq_self
  intro c hc
  rw [getLast?_append_right _ _ (by simp)] at hc
  rw [getLast?_cons_of_ne_nil _ _ (by simp)] at hc
  rw [getLast?_append_right _ _ (by simp)] at hc
  simp at hc
  subst hc
  decide

theorem htmlLineOf_shape (f : FgField) :
    htmlLineOf f = (get_field_icon f ++ htmlMetaPart f)
      ++ ((f.label ++ separator) ++ plainValue f) := by
  unfold htmlLineOf
  simp [List.append_assoc]

theorem trim_htmlLine_present (f : FgField) (hne : plainValue f ≠ [])
    (hws : ∀ c, (plainValue f).getLast? = some c → isWs c = false) :
    trimTrailing (htmlLineOf f) = htmlLineOf f := by
  apply trimTrailing_eq_self
  intro c hc
  rw [htmlLineOf_shape] at hc
  rw [getLast?_append_right _ _ (by simp [separator_chars, hne])] at hc
  rw [getLast?_append_right _ _ hne] at hc
  exact hws c hc

theorem trim_htmlLine_absent (f : FgField) (hv : plainValue f = []) :
    trimTrailing (htmlLineOf f)
      = (get_field_icon f ++ htmlMetaPart f) ++ (f.label ++ [':']) := by
  have e1 : htmlLineOf f
      = (((get_field_icon f ++ htmlMetaPart f) ++ (f.label ++ [':'])) ++ [' ']) := by
    rw [htmlLineOf_shape, hv, separator_chars]
    simp
  rw [e1, trimTrailing_append_ws _ _ (by decide)]
  apply trimTrailing_eq_self
  intro c hc
  rw [getLast?_append_right _ _ (by simp)] at hc
  rw [getLast?_append_right _ _ (by simp)] at hc
  simp at hc
  subst hc
  decide

/-! ### Hygiene unpacking -/

theorem contains_false_iff (l : Str) (c : Char) : (l.contains c = false) ↔ c ∉ l := by
  rw [← Bool.not_eq_true]
  simp [List.contains]

theorem fieldHygB_unpack (f : FgField) (h : fieldHygB f = true) :
    (findSubIdx separator f.label = none ∧ '\\' ∉ f.label ∧ '\n' ∉ f.label) ∧
    ('\\' ∉ plainValue f ∧ '[' ∉ plainValue f ∧ '\n' ∉ plainValue f ∧
      (∀ c, (plainValue f).getLast? = some c → isWs c = false)) ∧
    (∀ v, f.value = some v → plainValue f ≠ []) ∧
    (∀ rt rf, f.kind = FieldKind.boolF rt rf → rt ≠ rf) ∧
    (∀ cs, f.kind = FieldKind.dynChoiceF cs →
      cs ≠ [] ∧ ∀ x ∈ cs, dynSep ∉ x ∧ metaConcat ∉ x ∧ metaKvSep ∉ x ∧ '"' ∉ x ∧
        ')' ∉ x ∧ '\n' ∉ x) ∧
    ((∀ cs, f.kind ≠ FieldKind.dynChoiceF cs) →
      findSubIdx hrefMark (f.label ++ separator ++ plainValue f) = none) := by
  unfold fieldHygB at h
  simp only [Bool.and_eq_true] at h
  obtain ⟨⟨⟨hl, hv⟩, hp⟩, hk⟩ := h
  unfold labelHygB at hl
  simp only [Bool.and_eq_true, Option.isNone_iff_eq_none, Bool.not_eq_true',
    contains_false_iff] at hl
  unfold valHygB lastNotWsB at hv
  simp only [Bool.and_eq_true, Bool.not_eq_true', contains_false_iff] at hv
  obtain ⟨⟨⟨hv1, hv2⟩, hv3⟩, hv4⟩ := hv
  refine ⟨⟨hl.1.1, hl.1.2, hl.2⟩, ⟨hv1, hv2, hv3, ?_⟩, ?_, ?_, ?_, ?_⟩
  · intro c hc
    rw [hc] at hv4
    simpa using hv4
  · intro v hval
    rw [hval] at hp
    simpa [List.isEmpty_iff] using hp
  · intro rt rf hkk
    rw [hkk] at hk
    simp only [Bool.and_eq_true, Bool.not_eq_true', beq_eq_false_iff_ne, ne_eq] at hk
    exact hk.1
  · intro cs hkk
    rw [hkk] at hk
    unfold choicesHygB at hk
    simp only [Bool.and_eq_true, Bool.not_eq_true', contains_false_iff,
      List.all_eq_true, List.isEmpty_eq_false_iff_exists_mem] at hk
    obtain ⟨hne, hall⟩ := hk
    refine ⟨?_, ?_⟩
    · obtain ⟨x, hx⟩ := hne
      exact List.ne_nil_of_mem hx
    · intro x hx
      have := hall x hx
      tauto
  · intro hnk
    cases hkk : f.kind with
    | dynChoiceF cs => exact absurd hkk (hnk cs)
    | strF =>
      rw [hkk] at hk
      simpa [Option.isNone_iff_eq_none] using hk
    | intF =>
      rw [hkk] at hk
      simpa [Option.isNone_iff_eq_none] using hk
    | choiceF cs =>
      rw [hkk] at hk
      simpa [Option.isNone_iff_eq_none] using hk
    | boolF rt rf =>
      rw [hkk] at hk
      simp only [Bool.and_eq_true, Option.isNone_iff_eq_none] at hk
      exact hk.2

/-! ### Splitting a decoded line into label and value -/

theorem splitLV_normal (isLast : Bool) (lab pv : Str) (h : findSubIdx separator lab = none) :
    splitLabelValue isLast ((lab ++ separator) ++ pv) = Except.ok (lab, pv) := by
  unfold splitLabelValue
  have e : (lab ++ separator) ++ pv = lab ++ (':' :: ' ' :: pv) := by
    rw [separator_chars]
    simp
  rw [e, findSub_sep_mid lab pv h]
  dsimp only
  have ht : (lab ++ ':' :: ' ' :: pv).take lab.length = lab := List.take_left lab _
  have hd : (lab ++ ':' :: ' ' :: pv).drop (lab.length + separator.length) = pv := by
    rw [separator_chars]
    have e2 : lab ++ ':' :: ' ' :: pv = (lab ++ [':', ' ']) ++ pv := by simp
    have e3 : lab.length + (':' :: ' ' :: []).length = (lab ++ [':', ' ']).length := by simp
    rw [e2, e3, List.drop_left]
  rw [ht, hd]

theorem splitLV_trimmed (lab : Str) (h : findSubIdx separator lab = none) :
    splitLabelValue true (lab ++ [':']) = Except.ok (lab, []) := by
  unfold splitLabelValue
  rw [findSub_sep_append_colon lab h]
  dsimp only
  rw [List.getLast?_concat]
  dsimp only
  rw [if_pos rfl, List.dropLast_concat]
  rfl

/-! ### Characters of the packed metadata link -/

theorem pack_dyn_chars (cs : List Str)
    (hc : ∀ x ∈ cs, dynSep ∉ x ∧ metaConcat ∉ x ∧ metaKvSep ∉ x ∧ '"' ∉ x ∧
      ')' ∉ x ∧ '\n' ∉ x) :
    '"' ∉ pack_meta_as_link [(chsKey, joinC dynSep cs)] ∧
    ')' ∉ pack_meta_as_link [(chsKey, joinC dynSep cs)] ∧
    '\n' ∉ pack_meta_as_link [(chsKey, joinC dynSep cs)] ∧
    metaConcat ∉ chsKey ∧ metaKvSep ∉ chsKey ∧
    metaConcat ∉ joinC dynSep cs ∧ metaKvSep ∉ joinC dynSep cs := by
  have hjoin : ∀ d : Char, d ∈ joinC dynSep cs →
      d = dynSep ∨ ∃ x ∈ cs, d ∈ x := fun d hd => mem_joinC dynSep cs d hd
  have hj : ∀ d : Char, d ∈ joinC dynSep cs →
      d ≠ '"' ∧ d ≠ ')' ∧ d ≠ '\n' ∧ d ≠ metaConcat ∧ d ≠ metaKvSep := by
    intro d hd
    rcases hjoin d hd with rfl | ⟨x, hx, hdx⟩
    · refine ⟨by decide, by decide, by decide, by decide, by decide⟩
    · obtain ⟨c1, c2, c3, c4, c5, c6⟩ := hc x hx
      refine ⟨fun hq => c4 (hq ▸ hdx), fun hq => c5 (hq ▸ hdx), fun hq => c6 (hq ▸ hdx),
        fun hq => c2 (hq ▸ hdx), fun hq => c3 (hq ▸ hdx)⟩
  rw [pack_single]
  have hmem : ∀ d : Char, d ∈ metaLinkHead ++ (chsKey ++ metaKvSep :: joinC dynSep cs) →
      d ∈ metaLinkHead ∨ d ∈ chsKey ∨ d = metaKvSep ∨ d ∈ joinC dynSep cs := by
    intro d hd
    rcases List.mem_append.mp hd with hd | hd
    · exact Or.inl hd
    · rcases List.mem_append.mp hd with hd | hd
      · exact Or.inr (Or.inl hd)
      · rcases List.mem_cons.mp hd with hd | hd
        · exact Or.inr (Or.inr (Or.inl hd))
        · exact Or.inr (Or.inr (Or.inr hd))
  refine ⟨?_, ?_, ?_, by decide, by decide, ?_, ?_⟩
  · intro hin
    rcases hmem '"' hin with hd | hd | hd | hd
    · revert hd; decide
    · revert hd; decide
    · revert hd; decide
    · exact (hj '"' hd).1 rfl
  · intro hin
    rcases hmem ')' hin with hd | hd | hd | hd
    · revert hd; decide
    · revert hd; decide
    · revert hd; decide
    · exact (hj ')' hd).2.1 rfl
  · intro hin
    rcases hmem '\n' hin with hd | hd | hd | hd
    · revert hd; decide
    · revert hd; decide
    · revert hd; decide
    · exact (hj '\n' hd).2.2.1 rfl
  · intro hin
    exact (hj metaConcat hin).2.2.2.1 rfl
  · intro hin
    exact (hj metaKvSep hin).2.2.2.2 rfl

/-! ### The metadata channel of one line -/

theorem metaChannel_ok (f : FgField) (tail : Str)
    (hhyg : fieldHygB f = true)
    (htail : (∀ cs, f.kind ≠ FieldKind.dynChoiceF cs) → findSubIdx hrefMark tail = none) :
    (match extract_href_from_line ((get_field_icon f ++ htmlMetaPart f) ++ tail) with
     | some href => if href = [] then Except.ok none else parse_meta_from_link href
     | none => Except.ok (none : Option Meta)) = Except.ok (metaDecoded f) := by
  have hskipA : 'h' ∉ get_field_icon f ++ [metaChar] := by
    intro hmem
    rcases List.mem_append.mp hmem with hmem | hmem
    · exact (icon_clean f).2.2.1 hmem
    · revert hmem; decide
  cases hkk : f.kind with
  | dynChoiceF cs =>
    have hdyn := (fieldHygB_unpack f hhyg).2.2.2.2.1 cs hkk
    have hm : get_meta f = [(chsKey, joinC dynSep cs)] := by
      unfold get_meta
      rw [hkk]
    have hpk := pack_dyn_chars cs hdyn.2
    have hfound : extract_href_from_line ((get_field_icon f ++ htmlMetaPart f) ++ tail)
        = some (pack_meta_as_link (get_meta f)) := by
      unfold htmlMetaPart
      rw [if_neg (by rw [hm]; simp)]
      rw [show (get_field_icon f ++ (htmlAOpen ++ pack_meta_as_link (get_meta f) ++ htmlAMid
            ++ metaChar :: htmlAClose)) ++ tail
          = (get_field_icon f ++ ('<' :: 'a' :: ' ' :: [])) ++ (hrefMark
            ++ (pack_meta_as_link (get_meta f)
              ++ '"' :: ('>' :: metaChar :: (htmlAClose ++ tail)))) by
        rw [show htmlAOpen = ('<' :: 'a' :: ' ' :: []) ++ hrefMark from by decide]
        rw [show htmlAMid = '"' :: '>' :: [] from rfl]
        simp [List.append_assoc]]
      rw [extractHref_skip _ _ (by
        intro hmem
        rcases List.mem_append.mp hmem with hmem | hmem
        · exact (icon_clean f).2.2.1 hmem
        · revert hmem; decide)]
      exact extractHref_found _ _ (by rw [hm]; exact hpk.1)
    rw [hfound]
    dsimp only
    rw [if_neg (by
      rw [hm, pack_single]
      intro hc
      have := congrArg List.length hc
      revert this
      simp [metaLinkHead])]
    rw [hm]
    rw [parse_pack_single chsKey (joinC dynSep cs) (by decide) (by decide)
      hpk.2.2.2.2.2.1 hpk.2.2.2.2.2.2]
    unfold metaDecoded
    rw [hkk]
    rw [hm]
  | strF =>
    have hm : get_meta f = [] := by unfold get_meta; rw [hkk]
    have htail' := htail (by rw [hkk]; intro cs hc; exact FieldKind.noConfusion hc)
    unfold htmlMetaPart
    rw [if_pos hm]
    rw [extractHref_skip _ _ hskipA]
    rw [extractHref_none_of_findSub tail htail']
    unfold metaDecoded
    rw [hkk]
  | intF =>
    have hm : get_meta f = [] := by unfold get_meta; rw [hkk]
    have htail' := htail (by rw [hkk]; intro cs hc; exact FieldKind.noConfusion hc)
    unfold htmlMetaPart
    rw [if_pos hm]
    rw [extractHref_skip _ _ hskipA]
    rw [extractHref_none_of_findSub tail htail']
    unfold metaDecoded
    rw [hkk]
  | boolF rt rf =>
    have hm : get_meta f = [] := by unfold get_meta; rw [hkk]
    have htail' := htail (by rw [hkk]; intro cs hc; exact FieldKind.noConfusion hc)
    unfold htmlMetaPart
    rw [if_pos hm]
    rw [extractHref_skip _ _ hskipA]
    rw [extractHref_none_of_findSub tail htail']
    unfold metaDecoded
    rw [hkk]
  | choiceF cs =>
    have hm : get_meta f = [] := by unfold get_meta; rw [hkk]
    have htail' := htail (by rw [hkk]; intro cs hc; exact FieldKind.noConfusion hc)
    unfold htmlMetaPart
    rw [if_pos hm]
    rw [extractHref_skip _ _ hskipA]
    rw [extractHref_none_of_findSub tail htail']
    unfold metaDecoded
    rw [hkk]

/-! ### Decoding one rendered line -/

theorem decodeLine_ok (pre post : List FgField) (tmpl f : FgField) (isLast : Bool)
    (hlabels : ((pre ++ tmpl :: post).map FgField.label).Nodup)
    (hnames : ((pre ++ tmpl :: post).map FgField.name).Nodup)
    (hio : instanceOfB tmpl f = true)
    (hwf : wellFormedB f = true)
    (hhyg : fieldHygB f = true) :
    decodeLine (pre ++ tmpl :: post) isLast (plainLineOf f) (htmlLineOf f)
      = Except.ok (tmpl.name, f) := by
  obtain ⟨⟨hl1, hl2, hl3⟩, ⟨hp1, hp2, hp3, hp4⟩, hpres, hrtrf, hdyn, hhref⟩ :=
    fieldHygB_unpack f hhyg
  obtain ⟨h1, h2, h3, h4, h5, hkm⟩ := instanceOfB_unpack tmpl f hio
  unfold decodeLine
  rw [plainLineOf_shape f]
  rw [cutMeta_append _ _ (icon_clean f).2.2.2.1]
  rw [splitLV_normal isLast f.label (plainValue f) hl1]
  dsimp only
  rw [htmlLineOf_shape f]
  rw [metaChannel_ok f _ hhyg (fun hnd => hhref hnd)]
  dsimp only
  rw [h2, label_lookup pre post tmpl hlabels]
  dsimp only
  rw [name_find pre post tmpl hnames]
  dsimp only
  rw [show missing_value_str = ([] : Str) from rfl]
  rw [from_repr_round tmpl f hio hwf hpres hrtrf
    (fun cs hc => ((hdyn cs hc).1))
    (fun cs hc x hx => ((hdyn cs hc).2 x hx).1)]

theorem decodeLine_ok_trim (pre post : List FgField) (tmpl f : FgField)
    (hlabels : ((pre ++ tmpl :: post).map FgField.label).Nodup)
    (hnames : ((pre ++ tmpl :: post).map FgField.name).Nodup)
    (hio : instanceOfB tmpl f = true)
    (hwf : wellFormedB f = true)
    (hhyg : fieldHygB f = true) :
    decodeLine (pre ++ tmpl :: post) true
        (trimTrailing (plainLineOf f)) (trimTrailing (htmlLineOf f))
      = Except.ok (tmpl.name, f) := by
  obtain ⟨⟨hl1, hl2, hl3⟩, ⟨hp1, hp2, hp3, hp4⟩, hpres, hrtrf, hdyn, hhref⟩ :=
    fieldHygB_unpack f hhyg
  obtain ⟨h1, h2, h3, h4, h5, hkm⟩ := instanceOfB_unpack tmpl f hio
  by_cases hpv : plainValue f = []
  · rw [trim_plainLine_absent f hpv, trim_htmlLine_absent f hpv]
    have htail : (∀ cs, f.kind ≠ FieldKind.dynChoiceF cs) →
        findSubIdx hrefMark (f.label ++ [':']) = none := by
      intro hnd
      have hh := hhref hnd
      rw [hpv] at hh
      rw [show f.label ++ separator ++ ([] : Str) = (f.label ++ [':']) ++ [' '] by
        rw [separator_chars]; simp] at hh
      exact findSub_none_of_append hrefMark _ _ hh
    unfold decodeLine
    rw [show get_field_icon f ++ metaChar :: (f.label ++ [':'])
        = get_field_icon f ++ (metaChar :: (f.label ++ [':'])) from rfl]
    rw [cutMeta_append _ _ (icon_clean f).2.2.2.1]
    rw [splitLV_trimmed f.label hl1]
    dsimp only
    rw [metaChannel_ok f _ hhyg htail]
    dsimp only
    rw [h2, label_lookup pre post tmpl hlabels]
    dsimp only
    rw [name_find pre post tmpl hnames]
    dsimp only
    rw [show missing_value_str = ([] : Str) from rfl]
    have hfr := from_repr_round tmpl f hio hwf hpres hrtrf
      (fun cs hc => ((hdyn cs hc).1))
      (fun cs hc x hx => ((hdyn cs hc).2 x hx).1)
    rw [if_pos hpv] at hfr
    rw [show (if ([] : Str) = [] then (none : Option Str) else some []) = none from rfl]
    rw [hfr]
  · rw [trim_plainLine_present f hpv hp4, trim_htmlLine_present f hpv hp4]
    exact decodeLine_ok pre post tmpl f true hlabels hnames hio hwf hhyg

/-! ### Decoding the zipped line lists -/

theorem decodeLines_cons (fields : List FgField) (tl hl : Str) (rest : List (Str × Str))
    (i total : Nat) :
    decodeLines fields ((tl, hl) :: rest) i total
      = match decodeLine fields (i + 1 = total) tl hl with
        | Except.error e => Except.error e
        | Except.ok kv =>
          match decodeLines fields rest (i + 1) total with
          | Except.error e => Except.error e
          | Except.ok kvs => Except.ok (kv :: kvs) := by
  conv_lhs => rw [decodeLines]

theorem textLinesOf_cons2 (f g : FgField) (rest : List FgField) :
    textLinesOf (f :: g :: rest) = plainLineOf f :: textLinesOf (g :: rest) := rfl

theorem htmlLinesOf_cons2 (f g : FgField) (rest : List FgField) :
    htmlLinesOf (f :: g :: rest) = htmlLineOf f :: htmlLinesOf (g :: rest) := rfl

theorem decodeLines_render (schema : List FgField)
    (hlabels : (schema.map FgField.label).Nodup)
    (hnames : (schema.map FgField.name).Nodup) :
    ∀ (tfs : List (FgField × FgField)) (i total : Nat),
    i + tfs.length = total →
    (∀ p ∈ tfs, ∃ pre post, schema = pre ++ p.1 :: post) →
    (∀ p ∈ tfs, instanceOfB p.1 p.2 = true ∧ wellFormedB p.2 = true ∧ fieldHygB p.2 = true) →
    decodeLines schema ((textLinesOf (tfs.map Prod.snd)).zip (htmlLinesOf (tfs.map Prod.snd)))
        i total
      = Except.ok (tfs.map fun p => (p.1.name, p.2)) := by
  intro tfs
  induction tfs with
  | nil =>
    intro i total _ _ _
    rfl
  | cons p tfs' ih =>
    intro i total hlen hmem hgood
    obtain ⟨pre, post, hschema⟩ := hmem p (List.mem_cons_self p tfs')
    obtain ⟨hio, hwf, hhyg⟩ := hgood p (List.mem_cons_self p tfs')
    cases tfs' with
    | nil =>
      have htotal : total = i + 1 := by simpa using hlen.symm
      subst htotal
      show decodeLines schema
          ((textLinesOf [p.2]).zip (htmlLinesOf [p.2])) i (i + 1)
        = Except.ok [(p.1.name, p.2)]
      show decodeLines schema
          [(trimTrailing (plainLineOf p.2), trimTrailing (htmlLineOf p.2))] i (i + 1)
        = Except.ok [(p.1.name, p.2)]
      rw [decodeLines_cons]
      rw [show ((i + 1 = i + 1) : Bool) = true by simp]
      rw [hschema] at hlabels hnames ⊢
      rw [decodeLine_ok_trim pre post p.1 p.2 hlabels hnames hio hwf hhyg]
      rfl
    | cons q rest =>
      show decodeLines schema
          ((textLinesOf (p.2 :: q.2 :: (rest.map Prod.snd))).zip
            (htmlLinesOf (p.2 :: q.2 :: (rest.map Prod.snd)))) i total
        = Except.ok ((p.1.name, p.2) :: (q :: rest).map fun r => (r.1.name, r.2))
      rw [textLinesOf_cons2, htmlLinesOf_cons2]
      rw [show (plainLineOf p.2 :: textLinesOf (q.2 :: rest.map Prod.snd)).zip
            (htmlLineOf p.2 :: htmlLinesOf (q.2 :: rest.map Prod.snd))
          = (plainLineOf p.2, htmlLineOf p.2) :: ((textLinesOf (q.2 :: rest.map Prod.snd)).zip
            (htmlLinesOf (q.2 :: rest.map Prod.snd))) from rfl]
      rw [decodeLines_cons]
      rw [hschema] at hlabels hnames ⊢
      rw [decodeLine_ok pre post p.1 p.2 _ hlabels hnames hio hwf hhyg]
      dsimp only
      rw [← hschema] at hlabels hnames ⊢
      have hih := ih (i + 1) total (by simp at hlen ⊢; omega)
        (fun r hr => hmem r (List.mem_cons_of_mem p hr))
        (fun r hr => hgood r (List.mem_cons_of_mem p hr))
      rw [show ((q :: rest).map Prod.snd) = q.2 :: rest.map Prod.snd from rfl] at hih
      rw [hih]

/-! ### Line lists of a rendered form -/

theorem mem_escape (s : Str) (c : Char) (h : c ∈ escape_md s) : c ∈ s ∨ c = '\\' := by
  induction s with
  | nil => simp [escape_md] at h
  | cons a s' ih =>
    unfold escape_md at h
    rcases List.mem_append.mp h with h | h
    · by_cases hm : a ∈ mdSpecials
      · rw [if_pos hm] at h
        rcases List.mem_cons.mp h with rfl | h
        · exact Or.inr rfl
        · rcases List.mem_cons.mp h with rfl | h
          · exact Or.inl (List.mem_cons_self _ _)
          · simp at h
      · rw [if_neg hm] at h
        rcases List.mem_cons.mp h with rfl | h
        · exact Or.inl (List.mem_cons_self _ _)
        · simp at h
    · rcases ih h with h | h
      · exact Or.inl (List.mem_cons_of_mem a h)
      · exact Or.inr h

theorem get_meta_shape (f : FgField) :
    get_meta f = [] ∨ ∃ cs, f.kind = FieldKind.dynChoiceF cs ∧
      get_meta f = [(chsKey, joinC dynSep cs)] := by
  unfold get_meta
  cases hk : f.kind with
  | dynChoiceF cs => exact Or.inr ⟨cs, rfl, rfl⟩
  | strF => exact Or.inl rfl
  | intF => exact Or.inl rfl
  | boolF rt rf => exact Or.inl rfl
  | choiceF cs => exact Or.inl rfl

theorem pack_nil : pack_meta_as_link [] = metaLinkHead := by
  unfold pack_meta_as_link
  simp [joinC, List.intercalate]

theorem hurl_of_hyg (f : FgField) (hhyg : fieldHygB f = true) :
    ')' ∉ pack_meta_as_link (get_meta f) := by
  rcases get_meta_shape f with hm | ⟨cs, hk, hm⟩
  · rw [hm, pack_nil]
    decide
  · rw [hm]
    exact (pack_dyn_chars cs (fun x hx =>
      ((fieldHygB_unpack f hhyg).2.2.2.2.1 cs hk).2 x hx)).2.1

theorem nl_pack_of_hyg (f : FgField) (hhyg : fieldHygB f = true) :
    '\n' ∉ pack_meta_as_link (get_meta f) := by
  rcases get_meta_shape f with hm | ⟨cs, hk, hm⟩
  · rw [hm, pack_nil]
    decide
  · rw [hm]
    exact (pack_dyn_chars cs (fun x hx =>
      ((fieldHygB_unpack f hhyg).2.2.2.2.1 cs hk).2 x hx)).2.2.1

theorem noNL_fieldLineMd (f : FgField) (hhyg : fieldHygB f = true) :
    '\n' ∉ fieldLineMd f := by
  obtain ⟨⟨-, -, hl3⟩, ⟨-, -, hp3, -⟩, -, -, -, -⟩ := fieldHygB_unpack f hhyg
  rw [fieldLineMd_assoc]
  intro hmem
  rcases List.mem_append.mp hmem with hmem | hmem
  · exact (icon_clean f).2.2.2.2.1 hmem
  rcases List.mem_append.mp hmem with hmem | hmem
  · unfold metaContainerMd at hmem
    by_cases hc : 0 < (get_meta f).length
    · rw [if_pos hc] at hmem
      rcases List.mem_cons.mp hmem with hq | hmem
      · exact absurd hq (by decide)
      rcases List.mem_cons.mp hmem with hq | hmem
      · exact absurd hq (by decide)
      rcases List.mem_cons.mp hmem with hq | hmem
      · exact absurd hq (by decide)
      rcases List.mem_cons.mp hmem with hq | hmem
      · exact absurd hq (by decide)
      rcases List.mem_append.mp hmem with hmem | hmem
      · exact nl_pack_of_hyg f hhyg hmem
      · revert hmem; decide
    · rw [if_neg hc] at hmem
      revert hmem; decide
  rcases List.mem_append.mp hmem with hmem | hmem
  · rcases mem_escape _ _ hmem with hmem | hq
    · exact hl3 hmem
    · exact absurd hq (by decide)
  rcases List.mem_append.mp hmem with hmem | hmem
  · revert hmem
    rw [separator_chars]
    decide
  · by_cases hk : f.kind = FieldKind.strF
    · rw [to_repr_eq_escape f hk] at hmem
      rcases mem_escape _ _ hmem with hmem | hq
      · exact hp3 hmem
      · exact absurd hq (by decide)
    · rw [to_repr_eq_plain f hk] at hmem
      exact hp3 hmem

theorem noNL_plainLine (f : FgField) (hhyg : fieldHygB f = true) :
    '\n' ∉ plainLineOf f := by
  obtain ⟨⟨-, -, hl3⟩, ⟨-, -, hp3, -⟩, -, -, -, -⟩ := fieldHygB_unpack f hhyg
  rw [plainLineOf_shape]
  intro hmem
  rcases List.mem_append.mp hmem with hmem | hmem
  · exact (icon_clean f).2.2.2.2.1 hmem
  rcases List.mem_cons.mp hmem with hq | hmem
  · exact absurd hq (by decide)
  rcases List.mem_append.mp hmem with hmem | hmem
  · rcases List.mem_append.mp hmem with hmem | hmem
    · exact hl3 hmem
    · revert hmem; rw [separator_chars]; decide
  · exact hp3 hmem

theorem noNL_htmlLine (f : FgField) (hhyg : fieldHygB f = true) :
    '\n' ∉ htmlLineOf f := by
  obtain ⟨⟨-, -, hl3⟩, ⟨-, -, hp3, -⟩, -, -, -, -⟩ := fieldHygB_unpack f hhyg
  rw [htmlLineOf_shape]
  intro hmem
  rcases List.mem_append.mp hmem with hmem | hmem
  · rcases List.mem_append.mp hmem with hmem | hmem
    · exact (icon_clean f).2.2.2.2.1 hmem
    · unfold htmlMetaPart at hmem
      by_cases hc : get_meta f = []
      · rw [if_pos hc] at hmem
        revert hmem; decide
      · rw [if_neg hc] at hmem
        rcases List.mem_append.mp hmem with hmem | hmem
        · rcases List.mem_append.mp hmem with hmem | hmem
          · rcases List.mem_append.mp hmem with hmem | hmem
            · revert hmem; decide
            · exact nl_pack_of_hyg f hhyg hmem
          · revert hmem; decide
        · rcases List.mem_cons.mp hmem with hq | hmem
          · exact absurd hq (by decide)
          · revert hmem; decide
  · rcases List.mem_append.mp hmem with hmem | hmem
    · rcases List.mem_append.mp hmem with hmem | hmem
      · exact hl3 hmem
      · revert hmem; rw [separator_chars]; decide
    · exact hp3 hmem

/-! ### Nonemptiness of rendered lines -/

theorem icon_ne_nil (f : FgField) : get_field_icon f ≠ [] := (icon_clean f).2.2.2.2.2

theorem fieldLineMd_ne_nil (f : FgField) : fieldLineMd f ≠ [] := by
  rw [fieldLineMd_assoc]
  simp [icon_ne_nil f]

theorem plainLineOf_ne_nil (f : FgField) : plainLineOf f ≠ [] := by
  rw [plainLineOf_shape]
  simp [icon_ne_nil f]

theorem htmlLineOf_ne_nil (f : FgField) : htmlLineOf f ≠ [] := by
  rw [htmlLineOf_shape]
  simp [icon_ne_nil f]

theorem trim_plainLine_ne_nil (f : FgField) (hhyg : fieldHygB f = true) :
    trimTrailing (plainLineOf f) ≠ [] := by
  by_cases hv : plainValue f = []
  · rw [trim_plainLine_absent f hv]
    simp [icon_ne_nil f]
  · rw [trim_plainLine_present f hv (fieldHygB_unpack f hhyg).2.1.2.2.2]
    exact plainLineOf_ne_nil f

theorem trim_htmlLine_ne_nil (f : FgField) (hhyg : fieldHygB f = true) :
    trimTrailing (htmlLineOf f) ≠ [] := by
  by_cases hv : plainValue f = []
  · rw [trim_htmlLine_absent f hv]
    simp [icon_ne_nil f]
  · rw [trim_htmlLine_present f hv (fieldHygB_unpack f hhyg).2.1.2.2.2]
    exact htmlLineOf_ne_nil f

theorem joinC_cons_ne_nil (c : Char) (x : Str) (t : List Str) (hx : x ≠ []) :
    joinC c (x :: t) ≠ [] := by
  cases t with
  | nil => rw [joinC_singleton]; exact hx
  | cons y t' => rw [joinC_cons2]; simp

/-! ### The lines of a rendered form, collectively -/

theorem textLinesOf_mem (l : List FgField) :
    ∀ s ∈ textLinesOf l, ∃ f ∈ l, s = plainLineOf f ∨ s = trimTrailing (plainLineOf f) := by
  induction l with
  | nil => intro s hs; simp [textLinesOf] at hs
  | cons f t ih =>
    intro s hs
    cases t with
    | nil =>
      simp only [textLinesOf, List.mem_singleton] at hs
      exact ⟨f, List.mem_cons_self f [], Or.inr hs⟩
    | cons g t' =>
      rw [show textLinesOf (f :: g :: t') = plainLineOf f :: textLinesOf (g :: t')
        from rfl] at hs
      rcases List.mem_cons.mp hs with rfl | hs
      · exact ⟨f, List.mem_cons_self f _, Or.inl rfl⟩
      · obtain ⟨h, hh, he⟩ := ih s hs
        exact ⟨h, List.mem_cons_of_mem f hh, he⟩

theorem htmlLinesOf_mem (l : List FgField) :
    ∀ s ∈ htmlLinesOf l, ∃ f ∈ l, s = htmlLineOf f ∨ s = trimTrailing (htmlLineOf f) := by
  induction l with
  | nil => intro s hs; simp [htmlLinesOf] at hs
  | cons f t ih =>
    intro s hs
    cases t with
    | nil =>
      simp only [htmlLinesOf, List.mem_singleton] at hs
      exact ⟨f, List.mem_cons_self f [], Or.inr hs⟩
    | cons g t' =>
      rw [show htmlLinesOf (f :: g :: t') = htmlLineOf f :: htmlLinesOf (g :: t')
        from rfl] at hs
      rcases List.mem_cons.mp hs with rfl | hs
      · exact ⟨f, List.mem_cons_self f _, Or.inl rfl⟩
      · obtain ⟨h, hh, he⟩ := ih s hs
        exact ⟨h, List.mem_cons_of_mem f hh, he⟩

theorem textLinesOf_length (l : List FgField) : (textLinesOf l).length = l.length := by
  induction l with
  | nil => rfl
  | cons f t ih =>
    cases t with
    | nil => rfl
    | cons g t' =>
      rw [textLinesOf_cons2]
      simpa using ih

theorem htmlLinesOf_length (l : List FgField) : (htmlLinesOf l).length = l.length := by
  induction l with
  | nil => rfl
  | cons f t ih =>
    cases t with
    | nil => rfl
    | cons g t' =>
      rw [htmlLinesOf_cons2]
      simpa using ih

/-- The transport's trailing trim, applied to the whole joined text
rendering, reaches only the last line. -/
theorem trim_join_text (l : List FgField) (hhyg : ∀ f ∈ l, fieldHygB f = true) :
    trimTrailing (joinLines (l.map plainLineOf)) = joinLines (textLinesOf l) := by
  induction l with
  | nil => rfl
  | cons f t ih =>
    cases t with
    | nil =>
      show trimTrailing (joinLines [plainLineOf f]) = joinLines [trimTrailing (plainLineOf f)]
      unfold joinLines
      rw [joinC_singleton, joinC_singleton]
    | cons g t' =>
      have ihp := ih (fun x hx => hhyg x (List.mem_cons_of_mem f hx))
      show trimTrailing (joinLines (plainLineOf f :: (g :: t').map plainLineOf))
        = joinLines (textLinesOf (f :: g :: t'))
      unfold joinLines
      cases hm : (g :: t').map plainLineOf with
      | nil => simp at hm
      | cons y ys =>
        rw [joinC_cons2]
        have hjoin : plainLineOf f ++ '\n' :: joinC '\n' (y :: ys)
            = (plainLineOf f ++ ['\n']) ++ joinC '\n' (y :: ys) := by simp
        rw [hjoin, ← hm]
        have hne : trimTrailing (joinC '\n' ((g :: t').map plainLineOf)) ≠ [] := by
          rw [show joinC '\n' ((g :: t').map plainLineOf)
            = joinLines ((g :: t').map plainLineOf) from rfl, ihp]
          unfold joinLines
          cases t' with
          | nil =>
            exact joinC_cons_ne_nil '\n' _ []
              (trim_plainLine_ne_nil g (hhyg g (by simp)))
          | cons h t'' =>
            rw [textLinesOf_cons2]
            exact joinC_cons_ne_nil '\n' _ _ (plainLineOf_ne_nil g)
        rw [trimTrailing_append _ _ hne]
        rw [show joinC '\n' ((g :: t').map plainLineOf)
          = joinLines ((g :: t').map plainLineOf) from rfl, ihp]
        rw [textLinesOf_cons2]
        cases ht : textLinesOf (g :: t') with
        | nil =>
          exfalso
          have := textLinesOf_length (g :: t')
          rw [ht] at this
          simp at this
        | cons z zs =>
          unfold joinLines
          rw [joinC_cons2]
          simp

/-- The markup analogue of `trim_join_text`. -/
theorem trim_join_html (l : List FgField) (hhyg : ∀ f ∈ l, fieldHygB f = true) :
    trimTrailing (joinLines (l.map htmlLineOf)) = joinLines (htmlLinesOf l) := by
  induction l with
  | nil => rfl
  | cons f t ih =>
    cases t with
    | nil =>
      show trimTrailing (joinLines [htmlLineOf f]) = joinLines [trimTrailing (htmlLineOf f)]
      unfold joinLines
      rw [joinC_singleton, joinC_singleton]
    | cons g t' =>
      have ihp := ih (fun x hx => hhyg x (List.mem_cons_of_mem f hx))
      show trimTrailing (joinLines (htmlLineOf f :: (g :: t').map htmlLineOf))
        = joinLines (htmlLinesOf (f :: g :: t'))
      unfold joinLines
      cases hm : (g :: t').map htmlLineOf with
      | nil => simp at hm
      | cons y ys =>
        rw [joinC_cons2]
        have hjoin : htmlLineOf f ++ '\n' :: joinC '\n' (y :: ys)
            = (htmlLineOf f ++ ['\n']) ++ joinC '\n' (y :: ys) := by simp
        rw [hjoin, ← hm]
        have hne : trimTrailing (joinC '\n' ((g :: t').map htmlLineOf)) ≠ [] := by
          rw [show joinC '\n' ((g :: t').map htmlLineOf)
            = joinLines ((g :: t').map htmlLineOf) from rfl, ihp]
          unfold joinLines
          cases t' with
          | nil =>
            exact joinC_cons_ne_nil '\n' _ []
              (trim_htmlLine_ne_nil g (hhyg g (by simp)))
          | cons h t'' =>
            rw [htmlLinesOf_cons2]
            exact joinC_cons_ne_nil '\n' _ _ (htmlLineOf_ne_nil g)
        rw [trimTrailing_append _ _ hne]
        rw [show joinC '\n' ((g :: t').map htmlLineOf)
          = joinLines ((g :: t').map htmlLineOf) from rfl, ihp]
        rw [htmlLinesOf_cons2]
        cases ht : htmlLinesOf (g :: t') with
        | nil =>
          exfalso
          have := htmlLinesOf_length (g :: t')
          rw [ht] at this
          simp at this
        | cons z zs =>
          unfold joinLines
          rw [joinC_cons2]
          simp

/-! ### The transport applied to a full rendered form -/

theorem to_message_ne_nil (l : List FgField) (hne : l ≠ []) : to_message l ≠ [] := by
  cases l with
  | nil => exact absurd rfl hne
  | cons f t =>
    unfold to_message joinLines
    exact joinC_cons_ne_nil '\n' _ _ (fieldLineMd_ne_nil f)

theorem split_to_message (l : List FgField) (hne : l ≠ [])
    (hhyg : ∀ f ∈ l, fieldHygB f = true) :
    splitLines (to_message l) = l.map fieldLineMd := by
  unfold splitLines
  rw [if_neg (to_message_ne_nil l hne)]
  unfold to_message joinLines
  refine splitC_joinC '\n' _ (by simp [hne]) ?_
  intro x hx
  obtain ⟨f, hf, rfl⟩ := List.mem_map.mp hx
  exact noNL_fieldLineMd f (hhyg f hf)

/-- What the plain-text side of the transport delivers for a rendered
form: the field lines in their text view, newline-joined, with the
trailing trim confined to the last line. -/
theorem transportText_render (l : List FgField) (hne : l ≠ [])
    (hhyg : ∀ f ∈ l, fieldHygB f = true) :
    transportText (to_message l) = joinLines (textLinesOf l) := by
  unfold transportText
  rw [split_to_message l hne hhyg, List.map_map]
  have hmap : l.map (mdToText ∘ fieldLineMd) = l.map plainLineOf := by
    refine List.map_congr_left ?_
    intro f hf
    obtain ⟨⟨-, hlab, -⟩, ⟨hpv1, hpv2, -, -⟩, -, -, -, -⟩ :=
      fieldHygB_unpack f (hhyg f hf)
    exact mdToText_fieldLine f hlab hpv1 hpv2 (hurl_of_hyg f (hhyg f hf))
  rw [hmap]
  exact trim_join_text l hhyg

/-- The markup analogue of `transportText_render`. -/
theorem transportHtml_render (l : List FgField) (hne : l ≠ [])
    (hhyg : ∀ f ∈ l, fieldHygB f = true) :
    transportHtml (to_message l) = joinLines (htmlLinesOf l) := by
  unfold transportHtml
  rw [split_to_message l hne hhyg, List.map_map]
  have hmap : l.map (mdToHtml ∘ fieldLineMd) = l.map htmlLineOf := by
    refine List.map_congr_left ?_
    intro f hf
    obtain ⟨⟨-, hlab, -⟩, ⟨hpv1, hpv2, -, -⟩, -, -, -, -⟩ :=
      fieldHygB_unpack f (hhyg f hf)
    exact mdToHtml_fieldLine f hlab hpv1 hpv2 (hurl_of_hyg f (hhyg f hf))
  rw [hmap]
  exact trim_join_html l hhyg

theorem split_join_textLines (l : List FgField) (hne : l ≠ [])
    (hhyg : ∀ f ∈ l, fieldHygB f = true) :
    splitLines (joinLines (textLinesOf l)) = textLinesOf l := by
  have hlmem : ∀ s ∈ textLinesOf l,
      s ≠ [] ∧ '\n' ∉ s := by
    intro s hs
    obtain ⟨f, hf, he | he⟩ := textLinesOf_mem l s hs
    · exact ⟨he ▸ plainLineOf_ne_nil f, he ▸ fun hc =>
        noNL_plainLine f (hhyg f hf) hc⟩
    · exact ⟨he ▸ trim_plainLine_ne_nil f (hhyg f hf), he ▸ fun hc =>
        noNL_plainLine f (hhyg f hf) (mem_trimTrailing _ _ hc)⟩
  have hlne : textLinesOf l ≠ [] := by
    intro hc
    have := textLinesOf_length l
    rw [hc] at this
    exact hne (List.length_eq_zero.mp this.symm)
  unfold splitLines joinLines
  rw [if_neg ?hjoin]
  case hjoin =>
    cases ht : textLinesOf l with
    | nil => exact absurd ht hlne
    | cons z zs =>
      exact joinC_cons_ne_nil '\n' _ _ (hlmem z (ht ▸ List.mem_cons_self z zs)).1
  exact splitC_joinC '\n' _ hlne (fun x hx => (hlmem x hx).2)

theorem split_join_htmlLines (l : List FgField) (hne : l ≠ [])
    (hhyg : ∀ f ∈ l, fieldHygB f = true) :
    splitLines (joinLines (htmlLinesOf l)) = htmlLinesOf l := by
  have hlmem : ∀ s ∈ htmlLinesOf l,
      s ≠ [] ∧ '\n' ∉ s := by
    intro s hs
    obtain ⟨f, hf, he | he⟩ := htmlLinesOf_mem l s hs
    · exact ⟨he ▸ htmlLineOf_ne_nil f, he ▸ fun hc =>
        noNL_htmlLine f (hhyg f hf) hc⟩
    · exact ⟨he ▸ trim_htmlLine_ne_nil f (hhyg f hf), he ▸ fun hc =>
        noNL_htmlLine f (hhyg f hf) (mem_trimTrailing _ _ hc)⟩
  have hlne : htmlLinesOf l ≠ [] := by
    intro hc
    have := htmlLinesOf_length l
    rw [hc] at this
    exact hne (List.length_eq_zero.mp this.symm)
  unfold splitLines joinLines
  rw [if_neg ?hjoin]
  case hjoin =>
    cases ht : htmlLinesOf l with
    | nil => exact absurd ht hlne
    | cons z zs =>
      exact joinC_cons_ne_nil '\n' _ _ (hlmem z (ht ▸ List.mem_cons_self z zs)).1
  exact splitC_joinC '\n' _ hlne (fun x hx => (hlmem x hx).2)

/-! ### Zipping a schema with an instance list -/

theorem find?_append_some {α : Type} (p : α → Bool) (l₁ l₂ : List α) (x : α)
    (h : l₁.find? p = some x) : (l₁ ++ l₂).find? p = some x := by
  induction l₁ with
  | nil => simp at h
  | cons a t ih =>
    rw [List.cons_append]
    cases hp : p a with
    | true =>
      rw [List.find?_cons_of_pos _ hp] at h
      rw [List.find?_cons_of_pos _ hp]
      exact h
    | false =>
      rw [List.find?_cons_of_neg _ (by simp [hp])] at h
      rw [List.find?_cons_of_neg _ (by simp [hp])]
      exact ih h

theorem instListB_length (ts fs : List FgField) (h : instListB ts fs = true) :
    ts.length = fs.length := by
  induction ts generalizing fs with
  | nil =>
    cases fs with
    | nil => rfl
    | cons f fs' => simp [instListB] at h
  | cons t ts' ih =>
    cases fs with
    | nil => simp [instListB] at h
    | cons f fs' =>
      unfold instListB at h
      rw [Bool.and_eq_true] at h
      simpa using ih fs' h.2

theorem instListB_zip (ts fs : List FgField) (h : instListB ts fs = true) :
    ∀ p ∈ ts.zip fs, instanceOfB p.1 p.2 = true := by
  induction ts generalizing fs with
  | nil =>
    intro p hp
    simp at hp
  | cons t ts' ih =>
    cases fs with
    | nil => simp [instListB] at h
    | cons f fs' =>
      unfold instListB at h
      rw [Bool.and_eq_true] at h
      intro p hp
      rcases List.mem_cons.mp hp with rfl | hp
      · exact h.1
      · exact ih fs' h.2 p hp

theorem zip_map_snd (ts fs : List FgField) (hlen : ts.length = fs.length) :
    (ts.zip fs).map Prod.snd = fs := by
  induction ts generalizing fs with
  | nil =>
    cases fs with
    | nil => rfl
    | cons f fs' => simp at hlen
  | cons t ts' ih =>
    cases fs with
    | nil => simp at hlen
    | cons f fs' =>
      simp only [List.zip_cons_cons, List.map_cons]
      rw [ih fs' (by simpa using hlen)]

theorem zip_mem_split (ts fs : List FgField) :
    ∀ p ∈ ts.zip fs, ∃ pre post, ts = pre ++ p.1 :: post := by
  intro p hp
  exact List.append_of_mem (List.of_mem_zip hp).1

/-- The generated `__init__`: every schema field is replaced by the decoded
field stored under its name in the keyword dict.  With pairwise distinct
field names the last-written entry for each name is the instance field
zipped against that template. -/
theorem assemble (ts fs : List FgField) (hinst : instListB ts fs = true)
    (hnames : (ts.map FgField.name).Nodup) :
    ts.map (fun tmpl =>
      (((((ts.zip fs).map fun p => (p.1.name, p.2)).reverse.find?
        fun p => p.1 = tmpl.name)).map Prod.snd).getD tmpl) = fs := by
  induction ts generalizing fs with
  | nil =>
    cases fs with
    | nil => rfl
    | cons f fs' => simp [instListB] at hinst
  | cons t ts' ih =>
    cases fs with
    | nil => simp [instListB] at hinst
    | cons f fs' =>
      unfold instListB at hinst
      rw [Bool.and_eq_true] at hinst
      rw [List.map_cons, List.nodup_cons] at hnames
      have hkvs : ((t :: ts').zip (f :: fs')).map (fun p => (p.1.name, p.2))
          = (t.name, f) :: (ts'.zip fs').map (fun p => (p.1.name, p.2)) := by
        simp
      have hmemname : ∀ q ∈ (ts'.zip fs').map (fun p => (p.1.name, p.2)),
          q.1 ∈ ts'.map FgField.name := by
        intro q hq
        obtain ⟨p, hp, rfl⟩ := List.mem_map.mp hq
        exact List.mem_map.mpr ⟨p.1, (List.of_mem_zip hp).1, rfl⟩
      have hnone : (((ts'.zip fs').map fun p => (p.1.name, p.2)).reverse.find?
          fun p => p.1 = t.name) = none := by
        rw [List.find?_eq_none]
        intro q hq
        have hq' := hmemname q (List.mem_reverse.mp hq)
        simp only [decide_eq_true_eq]
        intro hc
        exact hnames.1 (hc ▸ hq')
      rw [List.map_cons]
      refine List.cons_eq_cons.mpr ⟨?_, ?_⟩
      · rw [hkvs]
        rw [List.reverse_cons]
        rw [find?_append_none _ _ _ hnone]
        simp
      · have hcongr : ts'.map (fun tmpl =>
            ((((((t :: ts').zip (f :: fs')).map fun p => (p.1.name, p.2)).reverse.find?
              fun p => p.1 = tmpl.name)).map Prod.snd).getD tmpl)
            = ts'.map (fun tmpl =>
            (((((ts'.zip fs').map fun p => (p.1.name, p.2)).reverse.find?
              fun p => p.1 = tmpl.name)).map Prod.snd).getD tmpl) := by
          refine List.map_congr_left ?_
          intro tmpl htmpl
          rw [hkvs, List.reverse_cons]
          cases hfind : (((ts'.zip fs').map fun p => (p.1.name, p.2)).reverse.find?
              fun p => p.1 = tmpl.name) with
          | some x =>
            rw [find?_append_some _ _ _ x hfind]
          | none =>
            rw [find?_append_none _ _ _ hfind]
            have hne : tmpl.name ≠ t.name := by
              intro hc
              exact hnames.1 (hc ▸ List.mem_map.mpr ⟨tmpl, htmpl, rfl⟩)
            rw [List.find?_cons_of_neg _ (by
              simp only [decide_eq_true_eq]
              exact fun hc => hne hc.symm)]
            rfl
        rw [hcongr]
        exact ih fs' hinst.2 hnames.2

/-- Round trip of the codec: a schema instance rendered with `to_message`,
carried through the transport's dual plain-text/markup rendering, and
decoded with `from_message`, is reconstructed exactly — under the spec's
ambient hygiene assumptions on labels, rendered values and choice lists,
and pairwise distinct labels and names. -/
theorem decode_encode (schema inst : List FgField)
    (hinst : instListB schema inst = true)
    (hwf : ∀ f ∈ inst, wellFormedB f = true)
    (hhyg : ∀ f ∈ inst, fieldHygB f = true)
    (hlabels : (schema.map FgField.label).Nodup)
    (hnames : (schema.map FgField.name).Nodup) :
    from_message schema (transportText (to_message inst)) (transportHtml (to_message inst))
      = Except.ok inst := by
  cases hi : inst with
  | nil =>
    cases hs : schema with
    | nil => rfl
    | cons s ss =>
      rw [hi, hs] at hinst
      simp [instListB] at hinst
  | cons g t =>
    subst hi
    have hne : g :: t ≠ [] := by simp
    have hlen := instListB_length schema (g :: t) hinst
    rw [transportText_render _ hne hhyg, transportHtml_render _ hne hhyg]
    unfold from_message
    rw [split_join_textLines _ hne hhyg, split_join_htmlLines _ hne hhyg]
    have hdec := decodeLines_render schema hlabels hnames (schema.zip (g :: t)) 0
      ((textLinesOf (g :: t)).length)
      (by rw [textLinesOf_length, List.length_zip, hlen]; simp)
      (zip_mem_split schema (g :: t))
      (fun p hp => ⟨instListB_zip schema (g :: t) hinst p hp,
        hwf p.2 (List.of_mem_zip hp).2, hhyg p.2 (List.of_mem_zip hp).2⟩)
    rw [zip_map_snd schema (g :: t) hlen] at hdec
    dsimp only
    rw [hdec]
    dsimp only
    exact congrArg Except.ok (assemble schema (g :: t) hinst hnames)

/-! ### Claims C1 and C3: the codec round trip and the trimmed last line -/

theorem textLinesOf_getLast (l : List FgField) :
    ∀ f, l.getLast? = some f →
      (textLinesOf l).getLast? = some (trimTrailing (plainLineOf f)) := by
  induction l with
  | nil => intro f hf; simp at hf
  | cons g t ih =>
    intro f hf
    cases t with
    | nil =>
      simp at hf
      subst hf
      rfl
    | cons h t' =>
      rw [List.getLast?_cons_cons] at hf
      rw [textLinesOf_cons2]
      cases ht : textLinesOf (h :: t') with
      | nil =>
        have := textLinesOf_length (h :: t')
        rw [ht] at this
        simp at this
      | cons z zs =>
        rw [List.getLast?_cons_cons, ← ht]
        exact ih f hf

/-- C1 (amended): for every schema and every instance of it produced by the
protocol's valid mutations, with well-formed stored values, the spec's own
hygiene assumptions on labels, rendered values and choice lists, and
pairwise distinct labels and names, decoding the encoded message
(`from_message` applied to the transport's plain-text and markup views of
`to_message`) reconstructs the instance field-for-field — value and
metadata-dependent state, including fields whose value is absent.  The
original universal statement is refuted by `c1_counterexample`: an
empty-string value, accepted by the setter, renders as an empty value
segment and decodes back to an absent value; the amendment therefore
requires every present value to render as nonempty text, which is part of
the hygiene side conditions. -/
theorem c1_round_trip (schema inst : List FgField)
    (hinst : instListB schema inst = true)
    (hwf : ∀ f ∈ inst, wellFormedB f = true)
    (hhyg : ∀ f ∈ inst, fieldHygB f = true)
    (hlabels : (schema.map FgField.label).Nodup)
    (hnames : (schema.map FgField.name).Nodup) :
    from_message schema (transportText (to_message inst)) (transportHtml (to_message inst))
      = Except.ok inst :=
  decode_encode schema inst hinst hwf hhyg hlabels hnames

theorem c1_witness :
    instListB [exStr, exInt, exBool, exDyn]
        [{ exStr with value := some (FieldVal.vstr ("Tom".data)) }, exInt,
         { exBool with value := some (FieldVal.vbool true) }, exDynInst] = true ∧
    exInt.value = none ∧
    from_message [exStr, exInt, exBool, exDyn]
        (transportText (to_message
          [{ exStr with value := some (FieldVal.vstr ("Tom".data)) }, exInt,
           { exBool with value := some (FieldVal.vbool true) }, exDynInst]))
        (transportHtml (to_message
          [{ exStr with value := some (FieldVal.vstr ("Tom".data)) }, exInt,
           { exBool with value := some (FieldVal.vbool true) }, exDynInst]))
      = Except.ok
          [{ exStr with value := some (FieldVal.vstr ("Tom".data)) }, exInt,
           { exBool with value := some (FieldVal.vbool true) }, exDynInst] :=
  ⟨by decide, by decide,
   c1_round_trip [exStr, exInt, exBool, exDyn]
     [{ exStr with value := some (FieldVal.vstr ("Tom".data)) }, exInt,
      { exBool with value := some (FieldVal.vbool true) }, exDynInst]
     (by decide) (by decide) (by decide) (by decide) (by decide)⟩

theorem c1_counterexample :
    assignE exStr (some (FieldVal.vstr []))
        = Except.ok { exStr with value := some (FieldVal.vstr []) } ∧
    from_message [exStr]
        (transportText (to_message [{ exStr with value := some (FieldVal.vstr []) }]))
        (transportHtml (to_message [{ exStr with value := some (FieldVal.vstr []) }]))
      ≠ Except.ok [{ exStr with value := some (FieldVal.vstr []) }] ∧
    from_message [exStr]
        (transportText (to_message [{ exStr with value := some (FieldVal.vstr []) }]))
        (transportHtml (to_message [{ exStr with value := some (FieldVal.vstr []) }]))
      = Except.ok [exStr] := by
  decide

/-- C3: (a) for every hygienic instance of a schema whose last field holds
an absent value, the final received plain-text line has lost the
separator's trailing space to the transport's trim — it ends in the bare
`:` — and decoding still resolves it to the correct field with an absent
value, the whole message decoding to the exact instance; (b) a last line
with no separator match whose metadata-stripped text does not end in the
separator's non-whitespace prefix `:` makes the decode fail with an
error. -/
theorem c3_last_absent_trim :
    (∀ (schema inst : List FgField) (lastF : FgField),
      instListB schema inst = true →
      (∀ f ∈ inst, wellFormedB f = true) →
      (∀ f ∈ inst, fieldHygB f = true) →
      (schema.map FgField.label).Nodup →
      (schema.map FgField.name).Nodup →
      inst.getLast? = some lastF →
      lastF.value = none →
      (textLinesOf inst).getLast?
          = some (get_field_icon lastF ++ metaChar :: (lastF.label ++ [':'])) ∧
      from_message schema (transportText (to_message inst))
          (transportHtml (to_message inst)) = Except.ok inst) ∧
    (∀ (fields : List FgField) (tl hl : Str),
      findSubIdx separator (cutMeta tl) = none →
      (cutMeta tl).getLast? ≠ some ':' →
      ∃ e, decodeLine fields true tl hl = Except.error e) := by
  constructor
  · intro schema inst lastF hinst hwf hhyg hlabels hnames hlast hnone
    refine ⟨?_, decode_encode schema inst hinst hwf hhyg hlabels hnames⟩
    rw [textLinesOf_getLast inst lastF hlast]
    rw [trim_plainLine_absent lastF (plainValue_none lastF hnone)]
  · intro fields tl hl hsep hne
    unfold decodeLine splitLabelValue
    rw [hsep]
    dsimp only
    rw [if_pos rfl]
    cases hg : (cutMeta tl).getLast? with
    | none => exact ⟨PyErr.indexError, rfl⟩
    | some c =>
      dsimp only
      have hcne : c ≠ ':' := fun hc' => hne (by rw [hg, hc'])
      rw [if_neg hcne]
      exact ⟨PyErr.valueError msgCannotDeserialize, rfl⟩

theorem c3_witness :
    ((textLinesOf [{ exStr with value := some (FieldVal.vstr ("Tom".data)) }, exInt]).getLast?
        = some (get_field_icon exInt ++ metaChar :: (exInt.label ++ [':'])) ∧
      from_message [exStr, exInt]
          (transportText (to_message
            [{ exStr with value := some (FieldVal.vstr ("Tom".data)) }, exInt]))
          (transportHtml (to_message
            [{ exStr with value := some (FieldVal.vstr ("Tom".data)) }, exInt]))
        = Except.ok [{ exStr with value := some (FieldVal.vstr ("Tom".data)) }, exInt]) ∧
    (∃ e, decodeLine [exStr] true (editIcon ++ metaChar :: ("Name".data)) []
        = Except.error e) :=
  ⟨c3_last_absent_trim.1 [exStr, exInt]
     [{ exStr with value := some (FieldVal.vstr ("Tom".data)) }, exInt] exInt
     (by decide) (by decide) (by decide) (by decide) (by decide) (by decide) (by decide),
   c3_last_absent_trim.2 [exStr] (editIcon ++ metaChar :: ("Name".data)) []
     (by decide) (by decide)⟩
